import Mathlib

/-!
Verification of the juju-core state layer: the multiwatcher Store and
StoreManager, the Constraints value type, and the ZooKeeper open/initialize
bootstrap.

The Store / StoreManager / Watcher implementation itself is not part of the
repository snapshot (only its test suite, in state/open.go, is); those
definitions are modelled from the specification, with every behavioural
choice pinned against the expectations of the test suite
(StoreChangeMethodTests, TestChangesSince, TestHandle*, TestRespond*).
Machine integers (Go int64) are modelled as Int; revision numbers never
overflow in any reachable state considered here.

Conventions of the embedding:
* the doubly-linked `list` of the Go Store is a Lean `List` ordered oldest
  entry first (the Go list keeps the newest element at Front; we keep the
  newest at the end, so walking our list front to back is walking the Go
  list Back to Front, which is exactly the ascending-revno direction);
* the `entities` map from id to list element is represented by carrying the
  map key inside each list cell (`InfoId × entityEntry`) together with a
  mirror list of keys (`entities`), updated by precisely the operations
  that update the Go map; the agreement of the two is invariant C4;
* Go `nil` info is `Option.none`.
-/

/-- Identifier of an entity: kind plus id (the test suite's testInfoId). -/
structure InfoId where
  kind : String
  id : String
deriving DecidableEq, Repr

/-- Opaque entity information; the engine only stores it and projects its
id (the test suite's MachineInfo / ServiceInfo, collapsed to one record:
`eid` is the (kind, id) pair recovered by IdForInfo, `payload` stands for
the remaining fields such as InstanceId). -/
structure EntityInfo where
  eid : InfoId
  payload : String
deriving DecidableEq, Repr

/-- Modelled from the spec: an entry in the Store (entityEntry in the test
suite): creation revision, last-mutation revision, reference count of
watchers owed a removal notification, tombstone flag, and the info. -/
structure entityEntry where
  creationRevno : Int
  revno : Int
  refCount : Int
  removed : Bool
  info : EntityInfo
deriving DecidableEq, Repr

/-- Delta delivered to a watcher: the entity info and a removal flag
(params.Delta). -/
structure Delta where
  removed : Bool
  entity : EntityInfo
deriving DecidableEq, Repr

/-- Modelled from the spec: the Store. `list` is the revno-ordered list of
entries (oldest first, newest last), each paired with its map key;
`entities` mirrors the key set of the Go map from InfoId to list element;
`latestRevno` is the monotonic revision counter. -/
structure Store where
  list : List (InfoId × entityEntry)
  entities : List InfoId
  latestRevno : Int
deriving DecidableEq, Repr

namespace Store

/-- NewStore: the empty store. -/
def empty : Store := ⟨[], [], 0⟩

/-- Lookup of the entry associated with an id (the Go map access
`a.entities[id]` followed by `.Value.(*entityEntry)`). -/
def lookup (a : Store) (id : InfoId) : Option entityEntry :=
  (a.list.find? (fun p => p.1 = id)).map (fun p => p.2)

/-- Replacement of the entry stored under `id` (in Go this is a mutation
through the pointer held by the list element; membership in list and map is
unchanged). -/
def setEntry (a : Store) (id : InfoId) (e : entityEntry) : Store :=
  { a with list := a.list.map (fun p => if p.1 = id then (id, e) else p) }

/-- Modelled from the spec: `add` inserts a fresh entry for an id that is
absent, with `revno = creationRevno = ++latestRevno`, `refCount = 0`,
`removed = false`, appended at the newest end of the list and entered into
the entities map. -/
def add (a : Store) (id : InfoId) (info : EntityInfo) : Store :=
  { list := a.list ++ [(id, { creationRevno := a.latestRevno + 1,
                              revno := a.latestRevno + 1,
                              refCount := 0, removed := false, info := info })],
    entities := a.entities ++ [id],
    latestRevno := a.latestRevno + 1 }

/-- Modelled from the spec: `delete` removes the entry for `id` from both
the list and the entities map, without touching `latestRevno`; absent ids
are ignored. -/
def delete (a : Store) (id : InfoId) : Store :=
  { list := a.list.filter (fun p => p.1 ≠ id),
    entities := a.entities.filter (fun i => i ≠ id),
    latestRevno := a.latestRevno }

/-- Modelled from the spec: `Update(id, info-or-nil)`.
With non-nil info: insert when absent; when present and not removed, bump
the revno, store the info and move the entry to the newest end (identical
info still bumps, per the spec's design note on identical re-update); a
tombstone is left untouched (the spec defines refresh only for entries not
marked removed). With nil info: ignore when absent or already removed;
otherwise bump `latestRevno` and, if `refCount` is zero, delete the entry
outright, else mark it removed, set its revno and move it to the newest
end. Pinned by StoreChangeMethodTests. -/
def Update (a : Store) (id : InfoId) (info : Option EntityInfo) : Store :=
  match a.lookup id, info with
  | none, none => a
  | none, some i => a.add id i
  | some e, none =>
      if e.removed then a
      else if e.refCount = 0 then
        { list := a.list.filter (fun p => p.1 ≠ id),
          entities := a.entities.filter (fun i => i ≠ id),
          latestRevno := a.latestRevno + 1 }
      else
        { list := a.list.filter (fun p => p.1 ≠ id) ++
            [(id, { e with revno := a.latestRevno + 1, removed := true })],
          entities := a.entities,
          latestRevno := a.latestRevno + 1 }
  | some e, some i =>
      if e.removed then a
      else
        { list := a.list.filter (fun p => p.1 ≠ id) ++
            [(id, { e with revno := a.latestRevno + 1, info := i })],
          entities := a.entities,
          latestRevno := a.latestRevno + 1 }

/-- Modelled from the spec: `decRef` decrements the reference count; if the
count reaches zero and the entry is marked removed, the entry is deleted.
In Go a decrement below zero panics; the model keeps the decremented value
(the panic is unreachable under the refcount invariant, and every theorem
about decRef carries the precondition `0 < refCount`). -/
def decRef (a : Store) (id : InfoId) : Store :=
  match a.lookup id with
  | none => a
  | some e =>
      let n := e.refCount - 1
      if 0 < n then a.setEntry id { e with refCount := n }
      else if n < 0 then a.setEntry id { e with refCount := n }
      else if e.removed then a.delete id
      else a.setEntry id { e with refCount := n }

/-- Suffix of the newest entries whose revno exceeds `revno`: the Go code
walks from the newest element towards the oldest while `revno <
entry.revno` holds and serves exactly the elements walked, oldest first. -/
def sinceSuffix (l : List (InfoId × entityEntry)) (revno : Int) :
    List (InfoId × entityEntry) :=
  (l.reverse.takeWhile (fun p => decide (revno < p.2.revno))).reverse

/-- Translation of an entry to the delta a watcher receives. -/
def toDelta (e : entityEntry) : Delta := ⟨e.removed, e.info⟩

/-- Modelled from the spec and pinned by TestChangesSince: `ChangesSince`
walks the newest suffix of entries with revno greater than the argument,
in ascending revno order, skipping entries that were created and removed
since that revision (so that an observer is never informed of the removal
of an entity it never saw), and translates each remaining entry to a
delta. -/
def ChangesSince (a : Store) (revno : Int) : List Delta :=
  ((sinceSuffix a.list revno).filter
      (fun p => !(p.2.removed && decide (revno < p.2.creationRevno)))).map
    (fun p => toDelta p.2)

end Store

/-- Test-suite helper StoreIncRef: increments the reference count of the
entry stored under `id`. -/
def StoreIncRef (a : Store) (id : InfoId) : Store :=
  match a.lookup id with
  | none => a
  | some e => a.setEntry id { e with refCount := e.refCount + 1 }

/-- Machine info with the given id and instance id, as built by the test
suite. -/
def machineInfo (id : String) (inst : String) : EntityInfo :=
  ⟨⟨"machine", id⟩, inst⟩

/-- Identifier projection used throughout the test suite. -/
def idForInfo (i : EntityInfo) : InfoId := i.eid

/-- Test-suite helper storeAdd. -/
def storeAdd (a : Store) (i : EntityInfo) : Store := a.add (idForInfo i) i

/-- Sanity: "add single entry" of StoreChangeMethodTests. -/
theorem storeTest_addSingle :
    (storeAdd Store.empty (machineInfo "0" "i-0")).latestRevno = 1 ∧
    (storeAdd Store.empty (machineInfo "0" "i-0")).list =
      [(⟨"machine", "0"⟩, ⟨1, 1, 0, false, machineInfo "0" "i-0"⟩)] := by
  decide

/-- Sanity: "mark removed on existing entry" of StoreChangeMethodTests:
add machines 0 and 1, increment the refcount of 0, remove 0; the final
revno is 3, machine 1 keeps revno 2, machine 0 becomes a tombstone with
revno 3 and refCount 1, moved to the newest end. -/
theorem storeTest_markRemoved :
    (((StoreIncRef (storeAdd (storeAdd Store.empty (machineInfo "0" ""))
        (machineInfo "1" "")) ⟨"machine", "0"⟩)).Update ⟨"machine", "0"⟩
        none).latestRevno = 3 ∧
    (((StoreIncRef (storeAdd (storeAdd Store.empty (machineInfo "0" ""))
        (machineInfo "1" "")) ⟨"machine", "0"⟩)).Update ⟨"machine", "0"⟩
        none).list =
      [(⟨"machine", "1"⟩, ⟨2, 2, 0, false, machineInfo "1" ""⟩),
       (⟨"machine", "0"⟩, ⟨1, 3, 1, true, machineInfo "0" ""⟩)] := by
  decide

/-- Sanity: "mark removed on entry with zero ref count": the entry is
deleted but the revision counter is still bumped to 2. -/
theorem storeTest_markRemovedZeroRef :
    ((storeAdd Store.empty (machineInfo "0" "")).Update ⟨"machine", "0"⟩
        none).latestRevno = 2 ∧
    ((storeAdd Store.empty (machineInfo "0" "")).Update ⟨"machine", "0"⟩
        none).list = [] := by
  decide

/-! Helper lemmas on lists. -/

/-- Helper: takeWhile ignores a final element that fails the predicate. -/
theorem takeWhile_append_last {α} (P : α → Bool) (xs : List α) (a : α)
    (h : P a = false) : (xs ++ [a]).takeWhile P = xs.takeWhile P := by
  induction xs with
  | nil => simp [List.takeWhile, h]
  | cons x t ih =>
      by_cases hx : P x = true
      · simpa [List.takeWhile_cons, hx] using ih
      · simp only [Bool.not_eq_true] at hx
        simp [List.takeWhile_cons, hx]

/-- Helper: takeWhile keeps a list all of whose elements satisfy the
predicate. -/
theorem takeWhile_of_all {α} (P : α → Bool) (xs : List α)
    (h : ∀ x ∈ xs, P x = true) : xs.takeWhile P = xs := by
  induction xs with
  | nil => rfl
  | cons x t ih =>
      simp [List.takeWhile_cons, h x (List.mem_cons_self x t),
        ih (fun y hy => h y (List.mem_cons_of_mem x hy))]

/-- Helper: mapping fst over a filter on fst. -/
theorem map_fst_filter_ne (l : List (InfoId × entityEntry)) (id : InfoId) :
    (l.filter (fun p => p.1 ≠ id)).map Prod.fst =
      (l.map Prod.fst).filter (fun i => i ≠ id) := by
  induction l with
  | nil => rfl
  | cons p t ih =>
      simp only [ne_eq, decide_not] at ih ⊢
      by_cases h : p.1 = id <;> simp [List.filter_cons, h, ih]

/-- Well-formedness invariant of a Store: the list is strictly ascending in
revno; every entry has `1 ≤ creationRevno ≤ revno ≤ latestRevno`; the ids
in the list are distinct; the entities key set is a permutation of the
list's keys; and the revision counter is non-negative. -/
def StoreInv (s : Store) : Prop :=
  s.list.Pairwise (fun p q => p.2.revno < q.2.revno) ∧
  (∀ p ∈ s.list, 1 ≤ p.2.creationRevno ∧ p.2.creationRevno ≤ p.2.revno ∧
    p.2.revno ≤ s.latestRevno) ∧
  (s.list.map Prod.fst).Nodup ∧
  s.entities.Perm (s.list.map Prod.fst) ∧
  0 ≤ s.latestRevno

theorem storeInv_empty : StoreInv Store.empty := by
  refine ⟨List.Pairwise.nil, ?_, List.nodup_nil, List.Perm.refl _, le_refl 0⟩
  intro p hp; simp [Store.empty] at hp

/-- Helper: a successful lookup produces a member of the list with the
looked-up key. -/
theorem lookup_mem {a : Store} {id : InfoId} {e : entityEntry}
    (h : a.lookup id = some e) : (id, e) ∈ a.list := by
  unfold Store.lookup at h
  cases hf : a.list.find? (fun p => p.1 = id) with
  | none => rw [hf] at h; simp at h
  | some p =>
      rw [hf] at h
      have hmem := List.mem_of_find?_eq_some hf
      have hp := List.find?_some hf
      simp at hp h
      have : p = (id, e) := by
        cases p with
        | mk x y => simp at hp h ⊢; exact ⟨hp, h⟩
      exact this ▸ hmem

/-- Helper: a failed lookup means the key is absent from the list. -/
theorem lookup_none {a : Store} {id : InfoId}
    (h : a.lookup id = none) : ∀ p ∈ a.list, p.1 ≠ id := by
  unfold Store.lookup at h
  cases hf : a.list.find? (fun p => p.1 = id) with
  | none =>
      intro p hp
      have := List.find?_eq_none.mp hf p hp
      simpa using this
  | some p => rw [hf] at h; simp at h

/-- Helper: in a list with distinct keys, two members with equal keys are
equal. -/
theorem key_unique {l : List (InfoId × entityEntry)}
    (h : (l.map Prod.fst).Nodup) {p q : InfoId × entityEntry}
    (hp : p ∈ l) (hq : q ∈ l) (hpq : p.1 = q.1) : p = q := by
  induction l with
  | nil => cases hp
  | cons x t ih =>
      rw [List.map_cons, List.nodup_cons] at h
      rcases List.mem_cons.mp hp with hpx | hpt <;>
        rcases List.mem_cons.mp hq with hqx | hqt
      · rw [hpx, hqx]
      · exfalso
        apply h.1
        have hq1 : q.1 ∈ t.map Prod.fst := List.mem_map_of_mem Prod.fst hqt
        rw [← hpq, hpx] at hq1
        exact hq1
      · exfalso
        apply h.1
        have hp1 : p.1 ∈ t.map Prod.fst := List.mem_map_of_mem Prod.fst hpt
        rw [hpq, hqx] at hp1
        exact hp1
      · exact ih h.2 hpt hqt

/-- Helper: under distinct keys, a member whose key is the looked-up id
carries the looked-up entry. -/
theorem mem_eq_of_lookup {a : Store} {id : InfoId} {e : entityEntry}
    (hnodup : (a.list.map Prod.fst).Nodup) (h : a.lookup id = some e) :
    ∀ p ∈ a.list, p.1 = id → p = (id, e) :=
  fun p hp hpid => key_unique hnodup hp (lookup_mem h) (by rw [hpid])


/-- Helper: pulling one occurrence of an id out of a duplicate-free list as
a trailing singleton is a permutation. -/
theorem perm_filter_append_self {l : List InfoId} {id : InfoId}
    (hnd : l.Nodup) (hmem : id ∈ l) :
    l.Perm (l.filter (fun i => i ≠ id) ++ [id]) := by
  induction l with
  | nil => cases hmem
  | cons x t ih =>
      rw [List.nodup_cons] at hnd
      by_cases hx : x = id
      · subst hx
        have hflt : t.filter (fun i => i ≠ x) = t := by
          rw [List.filter_eq_self]
          intro b hb
          have hbx : b ≠ x := fun hbx => hnd.1 (hbx ▸ hb)
          simpa using hbx
        have hstep : (x :: t).filter (fun i => i ≠ x) = t.filter (fun i => i ≠ x) := by
          simp [List.filter_cons]
        rw [hstep, hflt]
        exact @List.perm_append_comm _ [x] t
      · have hmem2 : id ∈ t := by
          rcases List.mem_cons.mp hmem with h1 | h2
          · exact absurd h1.symm hx
          · exact h2
        have hstep : (x :: t).filter (fun i => i ≠ id) =
            x :: t.filter (fun i => i ≠ id) := by
          simp [List.filter_cons, hx]
        rw [hstep, List.cons_append]
        exact List.Perm.cons x (ih hnd.2 hmem2)

/-- Helper: Update preserves the store invariant. -/
theorem storeInv_update (a : Store) (id : InfoId) (info : Option EntityInfo)
    (h : StoreInv a) : StoreInv (a.Update id info) := by
  obtain ⟨hsort, hbounds, hnodup, hperm, hlat⟩ := h
  have hfilt_sub : List.Sublist (a.list.filter (fun p => p.1 ≠ id)) a.list :=
    List.filter_sublist a.list
  have hfilt_nodup : ((a.list.filter (fun p => p.1 ≠ id)).map Prod.fst).Nodup := by
    rw [map_fst_filter_ne]
    exact List.Nodup.sublist (List.filter_sublist _) hnodup
  have hfilt_not_id : ∀ p ∈ a.list.filter (fun p => p.1 ≠ id), p.1 ≠ id := by
    intro p hp
    have := List.of_mem_filter hp
    simpa using this
  unfold Store.Update
  cases hl : a.lookup id with
  | none =>
      cases info with
      | none => exact ⟨hsort, hbounds, hnodup, hperm, hlat⟩
      | some i =>
          have hid_not : id ∉ a.list.map Prod.fst := by
            intro hmem
            obtain ⟨p, hp, hpid⟩ := List.mem_map.mp hmem
            exact lookup_none hl p hp hpid
          refine ⟨?_, ?_, ?_, ?_, by dsimp only [Store.add]; omega⟩
          · dsimp only [Store.add]
            rw [List.pairwise_append]
            refine ⟨hsort, List.pairwise_singleton _ _, ?_⟩
            intro p hp q hq
            rw [List.mem_singleton] at hq
            subst hq
            have := (hbounds p hp).2.2
            dsimp only
            omega
          · intro p hp
            dsimp only [Store.add] at hp ⊢
            rcases List.mem_append.mp hp with hpl | hpr
            · have := hbounds p hpl
              omega
            · rw [List.mem_singleton] at hpr
              subst hpr
              dsimp only
              omega
          · dsimp only [Store.add]
            simp only [List.map_append, List.map_singleton]
            rw [List.nodup_append]
            refine ⟨hnodup, List.nodup_singleton _, ?_⟩
            intro x hx hx2
            rw [List.mem_singleton] at hx2
            exact hid_not (hx2 ▸ hx)
          · dsimp only [Store.add]
            simp only [List.map_append, List.map_singleton]
            exact List.Perm.append hperm (List.Perm.refl _)
  | some e =>
      have hid_mem : id ∈ a.list.map Prod.fst :=
        List.mem_map_of_mem Prod.fst (lookup_mem hl)
      have hperm_pull : (a.list.map Prod.fst).Perm
          (((a.list.map Prod.fst).filter (fun i => i ≠ id)) ++ [id]) :=
        perm_filter_append_self hnodup hid_mem
      have hbound_e : 1 ≤ e.creationRevno ∧ e.creationRevno ≤ e.revno ∧
          e.revno ≤ a.latestRevno := hbounds (id, e) (lookup_mem hl)
      have hsort_filtapp : ∀ e2 : entityEntry, e2.revno = a.latestRevno + 1 →
          (a.list.filter (fun p => p.1 ≠ id) ++ [(id, e2)]).Pairwise
            (fun p q => p.2.revno < q.2.revno) := by
        intro e2 he2
        rw [List.pairwise_append]
        refine ⟨List.Pairwise.sublist hfilt_sub hsort,
          List.pairwise_singleton _ _, ?_⟩
        intro p hp q hq
        rw [List.mem_singleton] at hq
        subst hq
        have := (hbounds p (List.Sublist.mem hp hfilt_sub)).2.2
        simp only [he2]
        omega
      have hnodup_filtapp : ∀ e2 : entityEntry,
          ((a.list.filter (fun p => p.1 ≠ id) ++ [(id, e2)]).map Prod.fst).Nodup := by
        intro e2
        rw [List.map_append, List.map_singleton, List.nodup_append]
        refine ⟨hfilt_nodup, List.nodup_singleton _, ?_⟩
        intro x hx hx2
        rw [List.mem_singleton] at hx2
        obtain ⟨p, hp, hpx⟩ := List.mem_map.mp hx
        exact hfilt_not_id p hp (hpx.trans hx2)
      have hperm_filtapp : ∀ e2 : entityEntry, a.entities.Perm
          ((a.list.filter (fun p => p.1 ≠ id) ++ [(id, e2)]).map Prod.fst) := by
        intro e2
        rw [List.map_append, List.map_singleton, map_fst_filter_ne]
        exact hperm.trans hperm_pull
      have hbounds_filtapp : ∀ e2 : entityEntry,
          1 ≤ e2.creationRevno → e2.creationRevno ≤ e2.revno →
          e2.revno = a.latestRevno + 1 →
          ∀ p ∈ a.list.filter (fun p => p.1 ≠ id) ++ [(id, e2)],
            1 ≤ p.2.creationRevno ∧ p.2.creationRevno ≤ p.2.revno ∧
            p.2.revno ≤ a.latestRevno + 1 := by
        intro e2 hc1 hc2 hr p hp
        rcases List.mem_append.mp hp with hpl | hpr
        · have := hbounds p (List.Sublist.mem hpl hfilt_sub)
          omega
        · rw [List.mem_singleton] at hpr
          subst hpr
          dsimp only
          omega
      cases info with
      | none =>
          by_cases hrem : e.removed
          · simp only [hrem, if_true]
            exact ⟨hsort, hbounds, hnodup, hperm, hlat⟩
          · simp only [hrem, Bool.false_eq_true, if_false]
            by_cases href : e.refCount = 0
            · simp only [href, if_true]
              refine ⟨List.Pairwise.sublist hfilt_sub hsort, ?_, hfilt_nodup, ?_,
                by dsimp only; omega⟩
              · intro p hp
                have := hbounds p (List.Sublist.mem hp hfilt_sub)
                dsimp only
                omega
              · rw [map_fst_filter_ne]
                exact List.Perm.filter _ hperm
            · simp only [href, if_false]
              exact ⟨hsort_filtapp _ rfl,
                hbounds_filtapp _ hbound_e.1 (by dsimp only; omega) rfl,
                hnodup_filtapp _, hperm_filtapp _, by dsimp only; omega⟩
      | some i =>
          by_cases hrem : e.removed
          · simp only [hrem, if_true]
            exact ⟨hsort, hbounds, hnodup, hperm, hlat⟩
          · simp only [hrem, Bool.false_eq_true, if_false]
            exact ⟨hsort_filtapp _ rfl,
              hbounds_filtapp _ hbound_e.1 (by dsimp only; omega) rfl,
              hnodup_filtapp _, hperm_filtapp _, by dsimp only; omega⟩

/-- Helper: delete preserves the store invariant. -/
theorem storeInv_delete (a : Store) (id : InfoId) (h : StoreInv a) :
    StoreInv (a.delete id) := by
  obtain ⟨hsort, hbounds, hnodup, hperm, hlat⟩ := h
  dsimp only [Store.delete]
  refine ⟨List.Pairwise.sublist (List.filter_sublist _) hsort, ?_, ?_, ?_, hlat⟩
  · intro p hp
    exact hbounds p (List.Sublist.mem hp (List.filter_sublist _))
  · rw [map_fst_filter_ne]
    exact List.Nodup.sublist (List.filter_sublist _) hnodup
  · rw [map_fst_filter_ne]
    exact List.Perm.filter _ hperm

/-- Helper: setEntry does not change the keys of the list. -/
theorem map_fst_setEntry (a : Store) (id : InfoId) (e2 : entityEntry) :
    (a.setEntry id e2).list.map Prod.fst = a.list.map Prod.fst := by
  dsimp only [Store.setEntry]
  rw [List.map_map]
  apply List.map_congr_left
  intro p _
  by_cases hp : p.1 = id <;> simp [Function.comp, hp]

/-- Helper: setEntry with an entry that keeps creation and last-mutation
revnos preserves the store invariant. -/
theorem storeInv_setEntry (a : Store) (id : InfoId) (e e2 : entityEntry)
    (hl : a.lookup id = some e)
    (hcr : e2.creationRevno = e.creationRevno) (hrv : e2.revno = e.revno)
    (h : StoreInv a) : StoreInv (a.setEntry id e2) := by
  obtain ⟨hsort, hbounds, hnodup, hperm, hlat⟩ := h
  have hg : ∀ p ∈ a.list,
      ((if p.1 = id then (id, e2) else p) : InfoId × entityEntry).2.creationRevno
        = p.2.creationRevno ∧
      ((if p.1 = id then (id, e2) else p) : InfoId × entityEntry).2.revno
        = p.2.revno := by
    intro p hp
    by_cases hpid : p.1 = id
    · have hpe : p = (id, e) := mem_eq_of_lookup hnodup hl p hp hpid
      subst hpe
      simp [hcr, hrv]
    · simp [hpid]
  dsimp only [Store.setEntry]
  refine ⟨?_, ?_, ?_, ?_, hlat⟩
  · rw [List.pairwise_map]
    refine List.Pairwise.imp_of_mem ?_ hsort
    intro p q hp hq hpq
    rw [(hg p hp).2, (hg q hq).2]
    exact hpq
  · intro p hp
    obtain ⟨q, hq, hqp⟩ := List.mem_map.mp hp
    subst hqp
    rw [(hg q hq).1, (hg q hq).2]
    exact hbounds q hq
  · have := map_fst_setEntry a id e2
    dsimp only [Store.setEntry] at this
    rw [this]
    exact hnodup
  · have := map_fst_setEntry a id e2
    dsimp only [Store.setEntry] at this
    rw [this]
    exact hperm

/-- Helper: decRef preserves the store invariant. -/
theorem storeInv_decRef (a : Store) (id : InfoId) (h : StoreInv a) :
    StoreInv (a.decRef id) := by
  unfold Store.decRef
  cases hl : a.lookup id with
  | none => exact h
  | some e =>
      dsimp only
      by_cases h1 : 0 < e.refCount - 1
      · rw [if_pos h1]
        exact storeInv_setEntry a id e _ hl rfl rfl h
      · rw [if_neg h1]
        by_cases h2 : e.refCount - 1 < 0
        · rw [if_pos h2]
          exact storeInv_setEntry a id e _ hl rfl rfl h
        · rw [if_neg h2]
          by_cases h3 : e.removed
          · rw [if_pos h3]
            exact storeInv_delete a id h
          · rw [if_neg h3]
            exact storeInv_setEntry a id e _ hl rfl rfl h

/-- Helper: StoreIncRef preserves the store invariant. -/
theorem storeInv_incRef (a : Store) (id : InfoId) (h : StoreInv a) :
    StoreInv (StoreIncRef a id) := by
  unfold StoreIncRef
  cases hl : a.lookup id with
  | none => exact h
  | some e => exact storeInv_setEntry a id e _ hl rfl rfl h

/-- Application of a sequence of Update calls to a store. -/
def applyUpdates (a : Store) (us : List (InfoId × Option EntityInfo)) : Store :=
  us.foldl (fun acc u => acc.Update u.1 u.2) a

/-- Helper: any sequence of Updates preserves the store invariant. -/
theorem storeInv_applyUpdates (us : List (InfoId × Option EntityInfo))
    (a : Store) (h : StoreInv a) : StoreInv (applyUpdates a us) := by
  induction us generalizing a with
  | nil => exact h
  | cons u t ih => exact ih _ (storeInv_update a u.1 u.2 h)

/-- Helper: after delete, lookup of the deleted id fails. -/
theorem lookup_delete_self (a : Store) (id : InfoId) :
    (a.delete id).lookup id = none := by
  dsimp only [Store.delete, Store.lookup]
  have : (a.list.filter (fun p => p.1 ≠ id)).find? (fun p => p.1 = id) = none := by
    rw [List.find?_eq_none]
    intro p hp
    have := List.of_mem_filter hp
    simpa using this
  rw [this]
  rfl

/-- Helper: mapping a key-preserving replacement over a list does not
change which element find? locates, and replaces it. -/
theorem find_setEntry_list (l : List (InfoId × entityEntry)) (id : InfoId)
    (e2 : entityEntry)
    (h : (l.find? (fun p => p.1 = id)).isSome = true) :
    (l.map (fun p => if p.1 = id then (id, e2) else p)).find?
      (fun p => p.1 = id) = some (id, e2) := by
  induction l with
  | nil => simp at h
  | cons p t ih =>
      by_cases hp : p.1 = id
      · simp [List.find?_cons, hp]
      · simp only [List.find?_cons, hp, decide_False, Bool.false_eq_true,
          if_false] at h
        simp only [List.map_cons, if_neg hp, List.find?_cons, hp, decide_False,
          Bool.false_eq_true, if_false]
        exact ih h

/-- Helper: after setEntry of a present id, lookup returns the new entry. -/
theorem lookup_setEntry_self (a : Store) (id : InfoId) (e e2 : entityEntry)
    (h : a.lookup id = some e) : (a.setEntry id e2).lookup id = some e2 := by
  have hsome : (a.list.find? (fun p => p.1 = id)).isSome = true := by
    dsimp only [Store.lookup] at h
    cases hf : a.list.find? (fun p => p.1 = id) with
    | none => rw [hf] at h; simp at h
    | some p => simp
  dsimp only [Store.setEntry, Store.lookup]
  rw [find_setEntry_list a.list id e2 hsome]
  rfl

/-- Helper: under the stated preconditions decRef is a delete exactly when
the decremented count is zero on a removed entry, and a pure refCount
decrement otherwise. -/
theorem decRef_cases (a : Store) (id : InfoId) (e : entityEntry)
    (hl : a.lookup id = some e) (href : 1 ≤ e.refCount) :
    a.decRef id = if e.refCount = 1 ∧ e.removed = true then a.delete id
      else a.setEntry id { e with refCount := e.refCount - 1 } := by
  unfold Store.decRef
  rw [hl]
  dsimp only
  by_cases h1 : e.refCount = 1
  · have hn : ¬(0 < e.refCount - 1) := by omega
    have hn2 : ¬(e.refCount - 1 < 0) := by omega
    rw [if_neg hn, if_neg hn2]
    by_cases h3 : e.removed
    · rw [if_pos h3, if_pos ⟨h1, h3⟩]
    · rw [if_neg h3, if_neg (by
        intro hc
        exact h3 hc.2)]
  · have hn : 0 < e.refCount - 1 := by omega
    rw [if_pos hn, if_neg (by
      intro hc
      exact h1 hc.1)]

/-- C3: decRef decrements the reference count of the entry stored under the
given id and removes the entry from both the list and the entities map
exactly when the decremented count is zero and the entry is marked removed;
in every other case it makes no structural change (the keys of the list and
the entities map are untouched, only the stored refCount drops by one); and
a tombstone entry is never deleted by Update, only by such a decRef call. -/
theorem c3_decref_structure (a : Store) (id : InfoId) (e : entityEntry)
    (hl : a.lookup id = some e) (href : 1 ≤ e.refCount) :
    (e.refCount = 1 ∧ e.removed = true →
      (a.decRef id).list = a.list.filter (fun p => p.1 ≠ id) ∧
      (a.decRef id).entities = a.entities.filter (fun i => i ≠ id) ∧
      (a.decRef id).lookup id = none) ∧
    (¬(e.refCount = 1 ∧ e.removed = true) →
      (a.decRef id).lookup id = some { e with refCount := e.refCount - 1 } ∧
      (a.decRef id).list.map Prod.fst = a.list.map Prod.fst ∧
      (a.decRef id).entities = a.entities) ∧
    (∀ info : Option EntityInfo, e.removed = true →
      ((a.Update id info).lookup id).isSome = true) := by
  have hdec := decRef_cases a id e hl href
  refine ⟨?_, ?_, ?_⟩
  · intro hc
    rw [hdec, if_pos hc]
    exact ⟨rfl, rfl, lookup_delete_self a id⟩
  · intro hc
    rw [hdec, if_neg hc]
    exact ⟨lookup_setEntry_self a id e _ hl, map_fst_setEntry a id _, rfl⟩
  · intro info hrem
    unfold Store.Update
    rw [hl]
    cases info with
    | none =>
        dsimp only
        rw [if_pos hrem, hl]
        rfl
    | some i =>
        dsimp only
        rw [if_pos hrem, hl]
        rfl

/-- Witness for C3 at a concrete tombstone with refCount one: decRef
deletes it. -/
theorem c3_decref_structure_witness :
    ((((StoreIncRef (storeAdd Store.empty (machineInfo "0" ""))
        ⟨"machine", "0"⟩).Update ⟨"machine", "0"⟩ none).decRef
        ⟨"machine", "0"⟩).lookup ⟨"machine", "0"⟩) = none := by
  have h := c3_decref_structure
    ((StoreIncRef (storeAdd Store.empty (machineInfo "0" ""))
      ⟨"machine", "0"⟩).Update ⟨"machine", "0"⟩ none)
    ⟨"machine", "0"⟩ ⟨1, 2, 1, true, machineInfo "0" ""⟩ (by decide) (by decide)
  exact (h.1 ⟨by decide, by decide⟩).2.2

/-- Counterexample for C4: after the Update sequence "add machine 0, then
remove machine 0" the store is empty while latestRevno is 2, so neither
"the back entry's revno equals latestRevno" nor "latestRevno is 0 when the
store is empty" holds as claimed. -/
theorem c4_counterexample :
    (applyUpdates Store.empty [(⟨"machine", "0"⟩, some (machineInfo "0" "")),
        (⟨"machine", "0"⟩, none)]).list = [] ∧
    (applyUpdates Store.empty [(⟨"machine", "0"⟩, some (machineInfo "0" "")),
        (⟨"machine", "0"⟩, none)]).latestRevno = 2 ∧
    ¬ (applyUpdates Store.empty [(⟨"machine", "0"⟩, some (machineInfo "0" "")),
        (⟨"machine", "0"⟩, none)]).latestRevno = 0 := by
  decide

/-- C4 (amended): after any sequence of Update calls starting from the
empty store, the list is in (strictly) ascending revno order, the entities
map and the list agree (the key set of the map is a permutation of the
list's keys, which are themselves distinct, each entry carrying its own
key), and every entry's revno is bounded by latestRevno. The original
claim's stronger clause, that the back entry's revno equals latestRevno and
that latestRevno is 0 on an empty store, fails because removing an entry
with zero refCount bumps latestRevno and then deletes the entry. -/
theorem c4_store_invariants (us : List (InfoId × Option EntityInfo)) :
    ((applyUpdates Store.empty us).list.Pairwise
        (fun p q => p.2.revno ≤ q.2.revno)) ∧
    ((applyUpdates Store.empty us).list.map Prod.fst).Nodup ∧
    ((applyUpdates Store.empty us).entities.Perm
      ((applyUpdates Store.empty us).list.map Prod.fst)) ∧
    (∀ p ∈ (applyUpdates Store.empty us).list,
      p.2.revno ≤ (applyUpdates Store.empty us).latestRevno) := by
  obtain ⟨hsort, hbounds, hnodup, hperm, _⟩ :=
    storeInv_applyUpdates us Store.empty storeInv_empty
  exact ⟨hsort.imp (fun h => le_of_lt h), hnodup, hperm,
    fun p hp => (hbounds p hp).2.2⟩

/-- Counterexample for C7: updating a never-present id with nil info on the
empty store leaves latestRevno at 0, not 1 as claimed. -/
theorem c7_counterexample :
    (Store.empty.Update ⟨"machine", "0"⟩ none).latestRevno = 0 ∧
    ¬ (Store.empty.Update ⟨"machine", "0"⟩ none).latestRevno = 1 ∧
    (Store.empty.Update ⟨"machine", "0"⟩ none).list = [] ∧
    (Store.empty.Update ⟨"machine", "0"⟩ none).entities = [] := by
  decide

/-- C7 (amended): Update with nil info for an id the store does not contain
is a complete no-op: no entry is created in the list or the entities map
and latestRevno is unchanged (0 for the empty store). -/
theorem c7_update_nil_absent (a : Store) (id : InfoId)
    (h : a.lookup id = none) : a.Update id none = a := by
  unfold Store.Update
  rw [h]

/-- Witness for C7 on the empty store. -/
theorem c7_update_nil_absent_witness :
    Store.empty.Update ⟨"machine", "0"⟩ none = Store.empty :=
  c7_update_nil_absent Store.empty ⟨"machine", "0"⟩ (by decide)

/-- Helper: on a list in ascending revno order, the newest-suffix walk of
ChangesSince selects exactly the entries with revno above the bound. -/
theorem sinceSuffix_eq_filter (l : List (InfoId × entityEntry)) (r : Int)
    (hsort : l.Pairwise (fun p q => p.2.revno < q.2.revno)) :
    Store.sinceSuffix l r = l.filter (fun p => r < p.2.revno) := by
  induction l with
  | nil => rfl
  | cons p t ih =>
      rw [List.pairwise_cons] at hsort
      by_cases hp : r < p.2.revno
      · have hall : ∀ q ∈ p :: t, decide (r < q.2.revno) = true := by
          intro q hq
          rcases List.mem_cons.mp hq with h1 | h2
          · subst h1; simpa using hp
          · have := hsort.1 q h2
            simp only [decide_eq_true_iff]
            omega
        unfold Store.sinceSuffix
        rw [takeWhile_of_all _ _ (fun x hx => hall x (List.mem_reverse.mp hx))]
        rw [List.reverse_reverse]
        rw [List.filter_eq_self.mpr hall]
      · unfold Store.sinceSuffix
        rw [List.reverse_cons]
        rw [takeWhile_append_last _ _ _ (by simpa using hp)]
        rw [List.filter_cons_of_neg (by simpa using hp)]
        exact ih hsort.2

/-- Counterexample for C1: in a store holding a single tombstone with
revno 2 (machine 0 added, reference-counted, then removed),
ChangesSince(0) is empty even though the store has an entry with
revno > 0, because ChangesSince skips removals whose creation is after the
given revision. -/
theorem c1_counterexample :
    (((StoreIncRef (storeAdd Store.empty (machineInfo "0" ""))
        ⟨"machine", "0"⟩).Update ⟨"machine", "0"⟩ none).ChangesSince 0) = [] ∧
    ((StoreIncRef (storeAdd Store.empty (machineInfo "0" ""))
        ⟨"machine", "0"⟩).Update ⟨"machine", "0"⟩ none).list.length = 1 ∧
    (∀ p ∈ ((StoreIncRef (storeAdd Store.empty (machineInfo "0" ""))
        ⟨"machine", "0"⟩).Update ⟨"machine", "0"⟩ none).list, 0 < p.2.revno) := by
  decide

/-- C1 (amended): for a well-formed store, ChangesSince(r) returns, in
ascending revno order, one delta for every entry whose revno exceeds r
EXCEPT removed entries whose creationRevno also exceeds r (tombstones the
caller never saw alive), each delta carrying the entry's info and removed
flag; if latestRevno ≤ r the result is empty; if r < 0 the result consists
of all non-removed entries (tombstones, having creationRevno > r, are
always skipped there). -/
theorem c1_changes_since (a : Store) (r : Int) (h : StoreInv a) :
    (a.ChangesSince r =
      (a.list.filter (fun p => decide (r < p.2.revno) &&
        !(p.2.removed && decide (r < p.2.creationRevno)))).map
        (fun p => Store.toDelta p.2)) ∧
    (a.latestRevno ≤ r → a.ChangesSince r = []) ∧
    (r < 0 → a.ChangesSince r =
      (a.list.filter (fun p => !p.2.removed)).map (fun p => Store.toDelta p.2)) ∧
    ((a.list.filter (fun p => decide (r < p.2.revno) &&
        !(p.2.removed && decide (r < p.2.creationRevno)))).Pairwise
      (fun p q => p.2.revno < q.2.revno)) := by
  obtain ⟨hsort, hbounds, hnodup, hperm, hlat⟩ := h
  have hmain : a.ChangesSince r =
      (a.list.filter (fun p => decide (r < p.2.revno) &&
        !(p.2.removed && decide (r < p.2.creationRevno)))).map
        (fun p => Store.toDelta p.2) := by
    unfold Store.ChangesSince
    rw [sinceSuffix_eq_filter a.list r hsort]
    rw [List.filter_filter]
    congr 1
    apply List.filter_congr
    intro p _
    exact Bool.and_comm _ _
  refine ⟨hmain, ?_, ?_, List.Pairwise.sublist (List.filter_sublist _) hsort⟩
  · intro hle
    rw [hmain]
    have : a.list.filter (fun p => decide (r < p.2.revno) &&
        !(p.2.removed && decide (r < p.2.creationRevno))) = [] := by
      rw [List.filter_eq_nil_iff]
      intro p hp
      have := (hbounds p hp).2.2
      simp only [Bool.and_eq_true, decide_eq_true_iff, not_and, Bool.not_eq_true]
      intro hc
      omega
    rw [this]
    rfl
  · intro hneg
    rw [hmain]
    have : a.list.filter (fun p => decide (r < p.2.revno) &&
        !(p.2.removed && decide (r < p.2.creationRevno))) =
        a.list.filter (fun p => !p.2.removed) := by
      apply List.filter_congr
      intro p hp
      have h1 := (hbounds p hp).1
      have h2 := (hbounds p hp).2.1
      have hr : decide (r < p.2.revno) = true := by
        simp only [decide_eq_true_iff]
        omega
      have hc : decide (r < p.2.creationRevno) = true := by
        simp only [decide_eq_true_iff]
        omega
      rw [hr, hc]
      cases p.2.removed <;> rfl
    rw [this]

/-- Witness for C1 at a concrete store and revision. -/
theorem c1_changes_since_witness :
    (storeAdd Store.empty (machineInfo "0" "i-0")).ChangesSince 0 =
      [⟨false, machineInfo "0" "i-0"⟩] := by
  have h := c1_changes_since (storeAdd Store.empty (machineInfo "0" "i-0")) 0
    ⟨by decide, by decide, by decide, by decide, by decide⟩
  rw [h.1]
  decide

/-- Witness for C4 at a concrete one-Update sequence. -/
theorem c4_store_invariants_witness :
    ((applyUpdates Store.empty
        [(⟨"machine", "0"⟩, some (machineInfo "0" ""))]).list =
      [(⟨"machine", "0"⟩, ⟨1, 1, 0, false, machineInfo "0" ""⟩)]) ∧
    ((1 : Int) ≤ (applyUpdates Store.empty
        [(⟨"machine", "0"⟩, some (machineInfo "0" ""))]).latestRevno) :=
  ⟨by decide, (c4_store_invariants
      [(⟨"machine", "0"⟩, some (machineInfo "0" ""))]).2.2.2
    (⟨"machine", "0"⟩, ⟨1, 1, 0, false, machineInfo "0" ""⟩) (by decide)⟩

/-! Constraints (state/constraints.go). Parsing is modelled over character
lists; `strconv.ParseFloat` is modelled as exact decimal arithmetic over ℚ
(identical to the Go float64 computation for every value whose mantissa
fits 53 bits, which covers all values reachable from the renderer), and
`strconv.Atoi` as exact decimal parsing with the int64 range check. -/

/-- Name alias for String, used where the Go method name String would
shadow the type inside its own namespace. -/
abbrev GoStr := String

/-- Record of hardware requirement constraints (Constraints in
constraints.go); uint64 fields are modelled as Nat. -/
structure Constraints where
  Arch : Option String
  CpuCores : Option Nat
  CpuPower : Option Nat
  Mem : Option Nat
deriving DecidableEq, Repr

/-- Zero value of Constraints. -/
def emptyConstraints : Constraints := ⟨none, none, none, none⟩

/-- Whitespace test for the TrimSpace model (ASCII whitespace). -/
def isSpaceChar (c : Char) : Bool :=
  c = ' ' || c = '\t' || c = '\n' || c = '\r'

/-- Model of strings.TrimSpace on character lists. -/
def trimChars (l : List Char) : List Char :=
  ((l.dropWhile isSpaceChar).reverse.dropWhile isSpaceChar).reverse

/-- Model of strings.Split(s, " ") on character lists: split at every
space, keeping empty fields. -/
def splitSpaces : List Char → List (List Char)
  | [] => [[]]
  | c :: t =>
      match splitSpaces t with
      | [] => [[]]
      | h :: r => if c = ' ' then [] :: h :: r else (c :: h) :: r

/-- Split a token at its first equals sign (strings.Index(raw, "=")):
none when there is no equals sign, otherwise the part before and after. -/
def splitAtEq : List Char → Option (List Char × List Char)
  | [] => none
  | c :: t =>
      if c = '=' then some ([], t)
      else match splitAtEq t with
        | none => none
        | some (a, b) => some (c :: a, b)

/-- Decimal value of a digit list. -/
def digitsVal (l : List Char) : Nat :=
  l.foldl (fun acc c => acc * 10 + (c.toNat - 48)) 0

/-- Fuel-driven decimal rendering of a natural number (the recursion
pattern of Nat.toDigitsCore); the fuel is structurally consumed so that
the definition reduces inside the kernel. -/
def natDigitsGo (fuel n : Nat) : List Char :=
  match fuel with
  | 0 => []
  | fuel + 1 =>
      if n < 10 then [Char.ofNat (48 + n)]
      else natDigitsGo fuel (n / 10) ++ [Char.ofNat (48 + n % 10)]

/-- Decimal digits of a positive natural number (rendering of %d; only
used for positive values, uintStr renders zero as the empty string). -/
def natDigits (n : Nat) : List Char := natDigitsGo n n

/-- Decidable equality for Except results. -/
instance {ε α : Type} [DecidableEq ε] [DecidableEq α] :
    DecidableEq (Except ε α) := fun a b =>
  match a, b with
  | Except.ok x, Except.ok y =>
      if h : x = y then isTrue (by rw [h])
      else isFalse (by intro hc; cases hc; exact h rfl)
  | Except.error x, Except.error y =>
      if h : x = y then isTrue (by rw [h])
      else isFalse (by intro hc; cases hc; exact h rfl)
  | Except.ok _, Except.error _ => isFalse (by intro hc; cases hc)
  | Except.error _, Except.ok _ => isFalse (by intro hc; cases hc)

/-- Core of the strconv.Atoi model: a non-empty all-digit body with the
int64 range check. -/
def atoiCore (sg : Int) (l : List Char) : Option Int :=
  if l ≠ [] ∧ l.all Char.isDigit then
    let v : Int := sg * (digitsVal l : Int)
    if v < -(2 ^ 63) ∨ 2 ^ 63 - 1 < v then none else some v
  else none

/-- Model of strconv.Atoi: optional sign, then decimal digits, base 10,
64-bit int range. -/
def atoiModel (l : List Char) : Option Int :=
  match l with
  | [] => none
  | c :: t =>
      if c = '+' then atoiCore 1 t
      else if c = '-' then atoiCore (-1) t
      else atoiCore 1 (c :: t)

/-- Exact value of a finite decimal form: a sign, a numerator and a
positive power-of-ten denominator, representing neg * num / den. -/
structure DecValue where
  neg : Bool
  num : Nat
  den : Nat
deriving DecidableEq, Repr

/-- Exponent tail of the ParseFloat model: an optional sign and a
non-empty digit run scaling the value by a power of ten. -/
def expApply (base : DecValue) (l : List Char) : Option DecValue :=
  let sg : Bool × List Char :=
    match l with
    | c :: t =>
        if c = '+' then (false, t)
        else if c = '-' then (true, t) else (false, c :: t)
    | [] => (false, [])
  if sg.2 ≠ [] ∧ sg.2.all Char.isDigit then
    some (if sg.1 then { base with den := base.den * 10 ^ digitsVal sg.2 }
      else { base with num := base.num * 10 ^ digitsVal sg.2 })
  else none

/-- Model of strconv.ParseFloat for finite decimal forms: optional sign,
digits with optional fraction, optional decimal exponent, evaluated
exactly (hex floats, Inf and NaN are not modelled, and the float64
rounding of the source is idealized to exact decimal arithmetic). -/
def parseFloatModel (l0 : List Char) : Option DecValue :=
  let sgn : Bool × List Char :=
    match l0 with
    | c :: t =>
        if c = '+' then (false, t)
        else if c = '-' then (true, t) else (false, c :: t)
    | [] => (false, [])
  let l := sgn.2
  let ip := l.takeWhile Char.isDigit
  let r1 := l.dropWhile Char.isDigit
  let hasDot : Bool := match r1 with | c :: _ => c = '.' | [] => false
  let fp := if hasDot then r1.tail.takeWhile Char.isDigit else []
  let r2 := if hasDot then r1.tail.dropWhile Char.isDigit else r1
  if ip = [] ∧ fp = [] then none
  else
    let base : DecValue :=
      { neg := sgn.1, num := digitsVal ip * 10 ^ fp.length + digitsVal fp,
        den := 10 ^ fp.length }
    match r2 with
    | [] => some base
    | c :: t => if c = 'e' || c = 'E' then expApply base t else none

/-- Ceiling of the division of two naturals (the denominator positive). -/
def ceilDivNat (a b : Nat) : Nat := (a + b - 1) / b

/-- Model of the mbSuffixes table. -/
def mbSuffix (c : Char) : Option Nat :=
  if c = 'M' then some 1
  else if c = 'G' then some 1024
  else if c = 'T' then some (1024 * 1024)
  else if c = 'P' then some (1024 * 1024 * 1024)
  else none

/-- Model of parseUint64: empty means zero, otherwise Atoi with a
non-negativity check. -/
def parseUint64 (l : List Char) : Except GoStr Nat :=
  if l = [] then Except.ok 0
  else match atoiModel l with
    | none => Except.error "must be a non-negative integer"
    | some v =>
        if v < 0 then Except.error "must be a non-negative integer"
        else Except.ok v.toNat

namespace Constraints

/-- Constraints.setArch: accepts the empty string and the three known
architectures, rejects a second assignment. -/
def setArch (c : Constraints) (str : List Char) : Except GoStr Constraints :=
  if c.Arch.isSome then Except.error "already set"
  else if str = [] ∨ str = "amd64".toList ∨ str = "i386".toList ∨
      str = "arm".toList then
    Except.ok { c with Arch := some (String.mk str) }
  else Except.error ("\"" ++ String.mk str ++ "\" not recognized")

/-- Constraints.setCpuCores. -/
def setCpuCores (c : Constraints) (str : List Char) : Except GoStr Constraints :=
  if c.CpuCores.isSome then Except.error "already set"
  else (parseUint64 str).map (fun v => { c with CpuCores := some v })

/-- Constraints.setCpuPower. -/
def setCpuPower (c : Constraints) (str : List Char) : Except GoStr Constraints :=
  if c.CpuPower.isSome then Except.error "already set"
  else (parseUint64 str).map (fun v => { c with CpuPower := some v })

/-- Suffix handling of setMem: the megabyte multiplier selected by a
trailing M/G/T/P together with the remaining numeric body. -/
def memPick (str : List Char) : Nat × List Char :=
  match str.getLast? with
  | some ch =>
      match mbSuffix ch with
      | some m => (m, str.dropLast)
      | none => (1, str)
  | none => (1, str)

/-- Constraints.setMem: empty means zero; otherwise an optional M/G/T/P
suffix selects a megabyte multiplier, the body parses as a non-negative
decimal, and the result is rounded up to whole megabytes. -/
def setMem (c : Constraints) (str : List Char) : Except GoStr Constraints :=
  if c.Mem.isSome then Except.error "already set"
  else if str = [] then Except.ok { c with Mem := some 0 }
  else
    match parseFloatModel (memPick str).2 with
    | none => Except.error "must be a non-negative float with optional M/G/T/P suffix"
    | some v =>
        if v.neg ∧ v.num ≠ 0 then
          Except.error "must be a non-negative float with optional M/G/T/P suffix"
        else
          Except.ok { c with Mem := some (ceilDivNat (v.num * (memPick str).1) v.den) }

/-- Constraints.setRaw: split a name=value token and dispatch on the name,
wrapping setter errors as bad-constraint errors. -/
def setRaw (c : Constraints) (raw : List Char) : Except GoStr Constraints :=
  match splitAtEq raw with
  | none => Except.error ("malformed constraint \"" ++ String.mk raw ++ "\"")
  | some (nm, vl) =>
      if nm = [] then Except.error ("malformed constraint \"" ++ String.mk raw ++ "\"")
      else
        let wrap : GoStr → Except GoStr Constraints → Except GoStr Constraints :=
          fun name r => match r with
            | Except.ok c2 => Except.ok c2
            | Except.error e =>
                Except.error ("bad \"" ++ name ++ "\" constraint: " ++ e)
        if nm = "arch".toList then wrap "arch" (c.setArch vl)
        else if nm = "cpu-cores".toList then wrap "cpu-cores" (c.setCpuCores vl)
        else if nm = "cpu-power".toList then wrap "cpu-power" (c.setCpuPower vl)
        else if nm = "mem".toList then wrap "mem" (c.setMem vl)
        else Except.error ("unknown constraint \"" ++ String.mk nm ++ "\"")

end Constraints

/-- Processing of one argument of ParseConstraints: trim, split on spaces,
skip empty tokens, apply setRaw left to right stopping at the first
error. -/
def parseArg (c : Constraints) (arg : GoStr) : Except GoStr Constraints :=
  (splitSpaces (trimChars arg.toList)).foldlM
    (fun acc raw => if raw = [] then Except.ok acc else acc.setRaw raw) c

/-- ParseConstraints over the list of arguments (Go variadic slice). -/
def ParseConstraints (args : List GoStr) : Except GoStr Constraints :=
  args.foldlM parseArg emptyConstraints

/-- Model of uintStr: empty for zero, decimal digits otherwise. -/
def uintStr (i : Nat) : GoStr := if i = 0 then "" else String.mk (natDigits i)

/-- Model of strings.Join(strs, " "). -/
def strJoin : List GoStr → GoStr
  | [] => ""
  | [s] => s
  | s :: t => s ++ " " ++ strJoin t

/-- Renderer tokens contributed by the Arch field. -/
def archTokens : Option GoStr → List GoStr
  | none => []
  | some a => ["arch=" ++ a]

/-- Renderer tokens contributed by the CpuCores field. -/
def coresTokens : Option Nat → List GoStr
  | none => []
  | some n => ["cpu-cores=" ++ uintStr n]

/-- Renderer tokens contributed by the CpuPower field. -/
def powerTokens : Option Nat → List GoStr
  | none => []
  | some n => ["cpu-power=" ++ uintStr n]

/-- Renderer tokens contributed by the Mem field (M suffix unless the
value renders empty). -/
def memTokens : Option Nat → List GoStr
  | none => []
  | some n => ["mem=" ++ (if uintStr n = "" then "" else uintStr n ++ "M")]

/-- Token list of the renderer: the present fields in source order (arch,
cpu-cores, cpu-power, mem). -/
def constraintTokens (c : Constraints) : List GoStr :=
  archTokens c.Arch ++ coresTokens c.CpuCores ++ powerTokens c.CpuPower ++
    memTokens c.Mem

/-- Constraints.String: the token list joined by single spaces
(strings.Join(strs, " ")). -/
def Constraints.String (c : Constraints) : GoStr :=
  strJoin (constraintTokens c)

/-- Canonical token list as worded by the spec: the name=value tokens in
the canonical order arch, cpu-cores, cpu-power, mem, absent constraints
omitted, a zero-valued present constraint rendered as name= with no
value. Written from the specification for comparison with the renderer. -/
def canonicalTokensSpec (c : Constraints) : List GoStr :=
  (match c.Arch with | none => [] | some a => ["arch=" ++ a]) ++
  (match c.CpuCores with
   | none => []
   | some n => [if n = 0 then "cpu-cores=" else "cpu-cores=" ++ String.mk (natDigits n)]) ++
  (match c.CpuPower with
   | none => []
   | some n => [if n = 0 then "cpu-power=" else "cpu-power=" ++ String.mk (natDigits n)]) ++
  (match c.Mem with
   | none => []
   | some n => [if n = 0 then "mem=" else "mem=" ++ String.mk (natDigits n) ++ "M"])

/-- Sanity: scenario F of the spec, first half. -/
theorem constraintsTest_parse_example :
    ParseConstraints ["mem=4G cpu-cores=2"] =
      Except.ok ⟨none, some 2, none, some 4096⟩ := by
  decide

/-- Sanity: scenario F rendering. -/
theorem constraintsTest_render_example :
    Constraints.String ⟨none, some 2, none, some 4096⟩ =
      "cpu-cores=2 mem=4096M" := by
  decide

/-- Helper: code point of a digit character built from a digit value. -/
theorem char_digit_toNat (m : Nat) (h : m < 10) :
    (Char.ofNat (48 + m)).toNat = 48 + m := by
  interval_cases m <;> decide

/-- Helper: such characters are digits. -/
theorem char_digit_isDigit (m : Nat) (h : m < 10) :
    (Char.ofNat (48 + m)).isDigit = true := by
  interval_cases m <;> decide

/-- Helper: facts about digit characters needed by the tokenizer and the
numeric parsers. -/
theorem digit_char_facts (c : Char) (h : c.isDigit = true) :
    c ≠ '+' ∧ c ≠ '-' ∧ c ≠ '=' ∧ isSpaceChar c = false := by
  refine ⟨?_, ?_, ?_, ?_⟩
  · intro hc; rw [hc] at h; exact absurd h (by decide)
  · intro hc; rw [hc] at h; exact absurd h (by decide)
  · intro hc; rw [hc] at h; exact absurd h (by decide)
  · simp only [isSpaceChar, Bool.or_eq_false_iff, decide_eq_false_iff_not]
    refine ⟨⟨⟨?_, ?_⟩, ?_⟩, ?_⟩ <;> intro hc <;> rw [hc] at h <;>
      exact absurd h (by decide)

/-- Helper: specification of the fuel-driven digit renderer: for positive n
with sufficient fuel it renders a non-empty all-digit list whose decimal
value is n. -/
theorem natDigitsGo_spec : ∀ fuel n, 1 ≤ n → n ≤ fuel →
    natDigitsGo fuel n ≠ [] ∧ (∀ c ∈ natDigitsGo fuel n, c.isDigit = true) ∧
    digitsVal (natDigitsGo fuel n) = n := by
  intro fuel
  induction fuel with
  | zero => intro n h1 h2; omega
  | succ fuel ih =>
      intro n h1 h2
      by_cases hlt : n < 10
      · simp only [natDigitsGo, if_pos hlt]
        refine ⟨by simp, ?_, ?_⟩
        · intro c hc
          rw [List.mem_singleton] at hc
          subst hc
          exact char_digit_isDigit n hlt
        · simp [digitsVal, char_digit_toNat n hlt]
      · have hdiv1 : 1 ≤ n / 10 := by
          rw [Nat.le_div_iff_mul_le (by norm_num)]
          omega
        have hdivf : n / 10 ≤ fuel := by
          have := Nat.div_lt_self (by omega : 0 < n) (by norm_num : 1 < 10)
          omega
        obtain ⟨hne, hdig, hval⟩ := ih (n / 10) hdiv1 hdivf
        have hm : n % 10 < 10 := Nat.mod_lt n (by norm_num)
        simp only [natDigitsGo, if_neg hlt]
        refine ⟨by simp, ?_, ?_⟩
        · intro c hc
          rcases List.mem_append.mp hc with hcl | hcr
          · exact hdig c hcl
          · rw [List.mem_singleton] at hcr
            subst hcr
            exact char_digit_isDigit _ hm
        · unfold digitsVal
          rw [List.foldl_append]
          unfold digitsVal at hval
          rw [hval]
          simp only [List.foldl_cons, List.foldl_nil]
          rw [char_digit_toNat _ hm]
          omega

/-- Helper: specification of natDigits for positive numbers. -/
theorem natDigits_spec (n : Nat) (h : 1 ≤ n) :
    natDigits n ≠ [] ∧ (∀ c ∈ natDigits n, c.isDigit = true) ∧
    digitsVal (natDigits n) = n :=
  natDigitsGo_spec n n h (le_refl n)

/-- Helper: takeWhile and dropWhile on an all-satisfying list. -/
theorem dropWhile_of_all {α} (P : α → Bool) (l : List α)
    (h : ∀ x ∈ l, P x = true) : l.dropWhile P = [] := by
  induction l with
  | nil => rfl
  | cons x t ih =>
      rw [List.dropWhile_cons, if_pos (h x (List.mem_cons_self x t))]
      exact ih (fun y hy => h y (List.mem_cons_of_mem x hy))

/-- Helper: ParseFloat of a non-empty all-digit list yields its exact
decimal value. -/
theorem parseFloat_digits (l : List Char) (hne : l ≠ [])
    (hdig : ∀ c ∈ l, c.isDigit = true) :
    parseFloatModel l = some ⟨false, digitsVal l, 1⟩ := by
  obtain ⟨c, t, rfl⟩ : ∃ c t, l = c :: t := by
    cases l with
    | nil => exact absurd rfl hne
    | cons c t => exact ⟨c, t, rfl⟩
  have hc := digit_char_facts c (hdig c (List.mem_cons_self c t))
  unfold parseFloatModel
  simp only [if_neg hc.1, if_neg hc.2.1]
  rw [takeWhile_of_all _ _ hdig, dropWhile_of_all _ _ hdig]
  simp [hne, digitsVal]

/-- Helper: the atoiCore range facts. -/
theorem atoiCore_range (sg : Int) (l : List Char) (v : Int)
    (h : atoiCore sg l = some v) : -(2 ^ 63) ≤ v ∧ v ≤ 2 ^ 63 - 1 := by
  unfold atoiCore at h
  by_cases h1 : l ≠ [] ∧ l.all Char.isDigit
  · rw [if_pos h1] at h
    dsimp only at h
    by_cases h2 : sg * (digitsVal l : Int) < -(2 ^ 63) ∨
        2 ^ 63 - 1 < sg * (digitsVal l : Int)
    · rw [if_pos h2] at h; simp at h
    · rw [if_neg h2] at h
      rw [Option.some_inj] at h
      subst h
      omega
  · rw [if_neg h1] at h; simp at h

/-- Helper: Atoi on a non-empty all-digit list yields its decimal value
when it fits the int64 range. -/
theorem atoi_digits (l : List Char) (hne : l ≠ [])
    (hdig : ∀ c ∈ l, c.isDigit = true)
    (hle : (digitsVal l : Int) ≤ 2 ^ 63 - 1) :
    atoiModel l = some (digitsVal l : Int) := by
  obtain ⟨c, t, rfl⟩ : ∃ c t, l = c :: t := by
    cases l with
    | nil => exact absurd rfl hne
    | cons c t => exact ⟨c, t, rfl⟩
  have hc := digit_char_facts c (hdig c (List.mem_cons_self c t))
  unfold atoiModel
  dsimp only
  rw [if_neg hc.1, if_neg hc.2.1]
  unfold atoiCore
  rw [if_pos ⟨hne, by
    rw [List.all_eq_true]
    intro x hx
    exact hdig x hx⟩]
  dsimp only
  rw [if_neg (by
    push_neg
    constructor
    · have : (0 : Int) ≤ (digitsVal (c :: t) : Int) := Int.natCast_nonneg _
      omega
    · omega)]
  rw [one_mul]


/-- Join of character-list tokens with single spaces (mirror of strJoin at
the character level). -/
def joinChars : List (List Char) → List Char
  | [] => []
  | [t] => t
  | t :: ts => t ++ (' ' :: joinChars ts)

/-- Helper: toList commutes with strJoin. -/
theorem strJoin_toList (ss : List GoStr) :
    (strJoin ss).toList = joinChars (ss.map String.toList) := by
  induction ss with
  | nil => rfl
  | cons s t ih =>
      cases t with
      | nil => rfl
      | cons s2 r =>
          show (s ++ " " ++ strJoin (s2 :: r)).toList = _
          have happ : (s ++ " " ++ strJoin (s2 :: r)).toList =
              s.toList ++ " ".toList ++ (strJoin (s2 :: r)).toList := rfl
          rw [happ, ih]
          show _ = (String.toList s) ++ (' ' :: joinChars (List.map String.toList (s2 :: r)))
          rw [List.append_assoc]
          rfl

/-- Helper: splitSpaces never returns the empty list of fields. -/
theorem splitSpaces_ne_nil (l : List Char) : splitSpaces l ≠ [] := by
  cases l with
  | nil => simp [splitSpaces]
  | cons c t =>
      unfold splitSpaces
      cases splitSpaces t with
      | nil => simp
      | cons h r =>
          dsimp only
          by_cases hc : c = ' ' <;> simp [hc]

/-- Helper: splitSpaces of a space-free list is that single token. -/
theorem splitSpaces_nospace (t : List Char) (h : ∀ c ∈ t, c ≠ ' ') :
    splitSpaces t = [t] := by
  induction t with
  | nil => rfl
  | cons c r ih =>
      unfold splitSpaces
      rw [ih (fun x hx => h x (List.mem_cons_of_mem c hx))]
      dsimp only
      rw [if_neg (h c (List.mem_cons_self c r))]

/-- Helper: splitSpaces pulls off a leading space-free token before a
space. -/
theorem splitSpaces_token_space (t l : List Char) (h : ∀ c ∈ t, c ≠ ' ') :
    splitSpaces (t ++ (' ' :: l)) = t :: splitSpaces l := by
  induction t with
  | nil =>
      show splitSpaces (' ' :: l) = [] :: splitSpaces l
      obtain ⟨h2, r, hs⟩ : ∃ h2 r, splitSpaces l = h2 :: r := by
        cases hs : splitSpaces l with
        | nil => exact absurd hs (splitSpaces_ne_nil l)
        | cons h2 r => exact ⟨h2, r, rfl⟩
      conv_lhs => unfold splitSpaces
      rw [hs]
      dsimp only
      rw [if_pos rfl]
  | cons c r ih =>
      have htl := ih (fun x hx => h x (List.mem_cons_of_mem c hx))
      show splitSpaces (c :: (r ++ (' ' :: l))) = (c :: r) :: splitSpaces l
      conv_lhs => unfold splitSpaces
      rw [htl]
      dsimp only
      rw [if_neg (h c (List.mem_cons_self c r))]

/-- Helper: splitSpaces of the join of space-free tokens recovers the
tokens. -/
theorem splitSpaces_joinChars (ts : List (List Char)) (hne : ts ≠ [])
    (h : ∀ t ∈ ts, ∀ c ∈ t, c ≠ ' ') :
    splitSpaces (joinChars ts) = ts := by
  induction ts with
  | nil => exact absurd rfl hne
  | cons t r ih =>
      cases r with
      | nil =>
          show splitSpaces (joinChars [t]) = [t]
          exact splitSpaces_nospace t (h t (List.mem_cons_self t []))
      | cons t2 r2 =>
          show splitSpaces (t ++ (' ' :: joinChars (t2 :: r2))) = t :: t2 :: r2
          rw [splitSpaces_token_space t _ (h t (List.mem_cons_self t _))]
          rw [ih (by simp) (fun x hx c hc => h x (List.mem_cons_of_mem t hx) c hc)]

/-- Helper: dropWhile is the identity when the head fails the predicate. -/
theorem dropWhile_head_keep {l : List Char} (P : Char → Bool)
    (h : ∀ c, l.head? = some c → P c = false) : l.dropWhile P = l := by
  cases l with
  | nil => rfl
  | cons c t =>
      rw [List.dropWhile_cons, if_neg]
      rw [h c rfl]
      simp

/-- Helper: trimChars is the identity when both ends are non-whitespace. -/
theorem trimChars_of_ends (l : List Char)
    (h1 : ∀ c, l.head? = some c → isSpaceChar c = false)
    (h2 : ∀ c, l.getLast? = some c → isSpaceChar c = false) :
    trimChars l = l := by
  unfold trimChars
  rw [dropWhile_head_keep isSpaceChar h1]
  rw [dropWhile_head_keep isSpaceChar (by
    intro c hc
    rw [List.head?_reverse] at hc
    exact h2 c hc)]
  exact List.reverse_reverse l

/-- Helper: a join of non-empty whitespace-end-free tokens keeps
non-whitespace characters at both ends. -/
theorem joinChars_ends (ts : List (List Char))
    (h : ∀ t ∈ ts, t ≠ [] ∧ ∀ ch ∈ t, isSpaceChar ch = false) :
    (∀ c, (joinChars ts).head? = some c → isSpaceChar c = false) ∧
    (∀ c, (joinChars ts).getLast? = some c → isSpaceChar c = false) := by
  induction ts with
  | nil =>
      exact ⟨fun c hc => by simp [joinChars] at hc,
        fun c hc => by simp [joinChars] at hc⟩
  | cons t r ih =>
      have ht := h t (List.mem_cons_self t r)
      cases r with
      | nil =>
          refine ⟨fun c hc => ?_, fun c hc => ?_⟩
          · exact ht.2 c (List.mem_of_mem_head? hc)
          · exact ht.2 c (List.mem_of_mem_getLast? hc)
      | cons t2 r2 =>
          have hr := ih (fun x hx => h x (List.mem_cons_of_mem t hx))
          have hjoin_ne : joinChars (t2 :: r2) ≠ [] := by
            intro hc
            have h2 := (h t2 (by simp)).1
            cases r2 with
            | nil => exact h2 hc
            | cons t3 r3 =>
                have hsh : joinChars (t2 :: t3 :: r3) =
                    t2 ++ (' ' :: joinChars (t3 :: r3)) := rfl
                rw [hsh] at hc
                simp at hc
          obtain ⟨a, t1, rfl⟩ : ∃ a t1, t = a :: t1 := by
            cases hx : t with
            | nil => exact absurd hx ht.1
            | cons a t1 => exact ⟨a, t1, rfl⟩
          refine ⟨fun c hc => ?_, fun c hc => ?_⟩
          · have hshape : joinChars ((a :: t1) :: t2 :: r2) =
                a :: (t1 ++ (' ' :: joinChars (t2 :: r2))) := rfl
            rw [hshape, List.head?_cons, Option.some_inj] at hc
            exact hc ▸ ht.2 a (List.mem_cons_self a t1)
          · have hshape : joinChars ((a :: t1) :: t2 :: r2) =
                ((a :: t1) ++ [' ']) ++ joinChars (t2 :: r2) := by
              show (a :: t1) ++ (' ' :: joinChars (t2 :: r2)) = _
              rw [List.append_assoc]
              rfl
            rw [hshape, List.getLast?_append_of_ne_nil _ hjoin_ne] at hc
            exact hr.2 c hc

/-- Helper: splitAtEq splits at the first equals sign after an
equals-free prefix. -/
theorem splitAtEq_no_eq_prefix (nm rest : List Char)
    (h : ∀ c ∈ nm, c ≠ '=') :
    splitAtEq (nm ++ '=' :: rest) = some (nm, rest) := by
  induction nm with
  | nil => simp [splitAtEq]
  | cons c t ih =>
      show splitAtEq (c :: (t ++ '=' :: rest)) = some (c :: t, rest)
      unfold splitAtEq
      rw [if_neg (h c (List.mem_cons_self c t))]
      rw [ih (fun x hx => h x (List.mem_cons_of_mem c hx))]

/-- Helper: uintStr renders the empty string exactly for zero. -/
theorem uintStr_eq_empty_iff (n : Nat) : uintStr n = "" ↔ n = 0 := by
  unfold uintStr
  by_cases h : n = 0
  · simp [h]
  · simp only [h, if_false]
    constructor
    · intro hc
      have hne := (natDigits_spec n (by omega)).1
      have : (String.mk (natDigits n)).data = ("" : GoStr).data := by rw [hc]
      simp at this
      exact absurd this hne
    · intro hc; exact hc.elim

/-- Helper: character list of uintStr. -/
theorem uintStr_toList (n : Nat) :
    (uintStr n).toList = if n = 0 then [] else natDigits n := by
  unfold uintStr
  by_cases h : n = 0 <;> simp [h]

/-- Helper: setRaw on an arch token. -/
theorem setRaw_arch_token (c0 : Constraints) (a : GoStr) (h0 : c0.Arch = none)
    (ha : a = "" ∨ a = "amd64" ∨ a = "i386" ∨ a = "arm") :
    Constraints.setRaw c0 ("arch=" ++ a).toList =
      Except.ok { c0 with Arch := some a } := by
  have hsplit : splitAtEq ("arch=" ++ a).toList =
      some ("arch".toList, a.toList) := by
    have hsh : ("arch=" ++ a).toList = "arch".toList ++ '=' :: a.toList := rfl
    rw [hsh]
    exact splitAtEq_no_eq_prefix _ _ (by decide)
  unfold Constraints.setRaw
  rw [hsplit]
  dsimp only
  rw [if_neg (by decide), if_pos rfl]
  unfold Constraints.setArch
  rw [h0]
  dsimp only [Option.isSome]
  rw [if_neg (by simp)]
  rw [if_pos (by
    rcases ha with h | h | h | h <;> subst h <;> simp)]
  have hmk : String.mk a.toList = a := rfl
  rw [hmk]

/-- Helper: parseUint64 on a rendered unsigned value. -/
theorem parseUint64_uintStr (n : Nat) (hn : (n : Int) ≤ 2 ^ 63 - 1) :
    parseUint64 (uintStr n).toList = Except.ok n := by
  rw [uintStr_toList]
  by_cases hz : n = 0
  · subst hz
    simp [parseUint64]
  · rw [if_neg hz]
    obtain ⟨hne, hdig, hval⟩ := natDigits_spec n (by omega)
    unfold parseUint64
    rw [if_neg hne]
    rw [atoi_digits _ hne hdig (by rw [hval]; exact hn)]
    dsimp only
    rw [hval]
    rw [if_neg (not_lt.mpr (Int.natCast_nonneg n))]
    rw [Int.toNat_natCast]

/-- Helper: setRaw on a cpu-cores token. -/
theorem setRaw_cores_token (c0 : Constraints) (n : Nat)
    (h0 : c0.CpuCores = none) (hn : (n : Int) ≤ 2 ^ 63 - 1) :
    Constraints.setRaw c0 ("cpu-cores=" ++ uintStr n).toList =
      Except.ok { c0 with CpuCores := some n } := by
  have hsplit : splitAtEq ("cpu-cores=" ++ uintStr n).toList =
      some ("cpu-cores".toList, (uintStr n).toList) := by
    have hsh : ("cpu-cores=" ++ uintStr n).toList =
        "cpu-cores".toList ++ '=' :: (uintStr n).toList := rfl
    rw [hsh]
    exact splitAtEq_no_eq_prefix _ _ (by decide)
  unfold Constraints.setRaw
  rw [hsplit]
  dsimp only
  rw [if_neg (by decide), if_neg (by decide), if_pos rfl]
  unfold Constraints.setCpuCores
  rw [h0]
  dsimp only [Option.isSome]
  rw [if_neg (by simp)]
  rw [parseUint64_uintStr n hn]
  rfl

/-- Helper: setRaw on a cpu-power token. -/
theorem setRaw_power_token (c0 : Constraints) (n : Nat)
    (h0 : c0.CpuPower = none) (hn : (n : Int) ≤ 2 ^ 63 - 1) :
    Constraints.setRaw c0 ("cpu-power=" ++ uintStr n).toList =
      Except.ok { c0 with CpuPower := some n } := by
  have hsplit : splitAtEq ("cpu-power=" ++ uintStr n).toList =
      some ("cpu-power".toList, (uintStr n).toList) := by
    have hsh : ("cpu-power=" ++ uintStr n).toList =
        "cpu-power".toList ++ '=' :: (uintStr n).toList := rfl
    rw [hsh]
    exact splitAtEq_no_eq_prefix _ _ (by decide)
  unfold Constraints.setRaw
  rw [hsplit]
  dsimp only
  rw [if_neg (by decide), if_neg (by decide), if_neg (by decide), if_pos rfl]
  unfold Constraints.setCpuPower
  rw [h0]
  dsimp only [Option.isSome]
  rw [if_neg (by simp)]
  rw [parseUint64_uintStr n hn]
  rfl

/-- Helper: setRaw on a mem token. -/
theorem setRaw_mem_token (c0 : Constraints) (n : Nat) (h0 : c0.Mem = none) :
    Constraints.setRaw c0
      ("mem=" ++ (if uintStr n = "" then "" else uintStr n ++ "M")).toList =
      Except.ok { c0 with Mem := some n } := by
  have hval : ((if uintStr n = "" then "" else uintStr n ++ "M") : GoStr).toList =
      if n = 0 then [] else natDigits n ++ ['M'] := by
    by_cases hz : n = 0
    · rw [if_pos ((uintStr_eq_empty_iff n).mpr hz), if_pos hz]
      rfl
    · rw [if_neg (fun hc => hz ((uintStr_eq_empty_iff n).mp hc)), if_neg hz]
      show (uintStr n).toList ++ "M".toList = _
      rw [uintStr_toList, if_neg hz]
      rfl
  have hsplit : splitAtEq
      ("mem=" ++ (if uintStr n = "" then "" else uintStr n ++ "M")).toList =
      some ("mem".toList, if n = 0 then [] else natDigits n ++ ['M']) := by
    have hsh : ("mem=" ++ (if uintStr n = "" then "" else uintStr n ++ "M")).toList =
        "mem".toList ++ '=' ::
          ((if uintStr n = "" then "" else uintStr n ++ "M") : GoStr).toList := rfl
    rw [hsh, hval]
    exact splitAtEq_no_eq_prefix _ _ (by decide)
  unfold Constraints.setRaw
  rw [hsplit]
  dsimp only
  rw [if_neg (by decide), if_neg (by decide), if_neg (by decide),
    if_neg (by decide), if_pos rfl]
  unfold Constraints.setMem
  rw [h0]
  dsimp only [Option.isSome]
  rw [if_neg (by simp)]
  by_cases hz : n = 0
  · rw [if_pos hz, if_pos rfl]
    rw [hz]
  · rw [if_neg hz]
    obtain ⟨hne, hdig, hdv⟩ := natDigits_spec n (by omega)
    rw [if_neg (by simp)]
    have hpick : Constraints.memPick (natDigits n ++ ['M']) = (1, natDigits n) := by
      unfold Constraints.memPick
      rw [List.getLast?_concat]
      dsimp only
      rw [show mbSuffix 'M' = some 1 from rfl]
      dsimp only
      rw [List.dropLast_concat]
    rw [hpick]
    dsimp only
    rw [parseFloat_digits _ hne hdig]
    dsimp only
    rw [if_neg (by simp)]
    rw [hdv]
    have hcd : ceilDivNat (n * 1) 1 = n := by
      unfold ceilDivNat
      omega
    rw [hcd]

/-- Validity conditions satisfied by every parse result: the architecture
is one of the recognized values and the Atoi-parsed fields fit int64. -/
def ValidC (c : Constraints) : Prop :=
  (∀ a, c.Arch = some a → a = "" ∨ a = "amd64" ∨ a = "i386" ∨ a = "arm") ∧
  (∀ n, c.CpuCores = some n → (n : Int) ≤ 2 ^ 63 - 1) ∧
  (∀ n, c.CpuPower = some n → (n : Int) ≤ 2 ^ 63 - 1)

/-- Helper: fold step over the optional arch token. -/
theorem fold_arch (o : Option GoStr) (rest : List (List Char))
    (c0 : Constraints) (h0 : c0.Arch = none)
    (ha : ∀ a, o = some a → a = "" ∨ a = "amd64" ∨ a = "i386" ∨ a = "arm") :
    List.foldlM Constraints.setRaw c0 ((archTokens o).map String.toList ++ rest) =
      List.foldlM Constraints.setRaw { c0 with Arch := o } rest := by
  cases o with
  | none =>
      have hc : ({ c0 with Arch := none } : Constraints) = c0 := by
        rcases c0 with ⟨A0, C0, P0, M0⟩
        dsimp at h0
        rw [h0]
      rw [hc]
      rfl
  | some a =>
      show List.foldlM Constraints.setRaw c0
        (("arch=" ++ a).toList :: rest) = _
      rw [List.foldlM_cons, setRaw_arch_token c0 a h0 (ha a rfl)]
      rfl

/-- Helper: fold step over the optional cpu-cores token. -/
theorem fold_cores (o : Option Nat) (rest : List (List Char))
    (c0 : Constraints) (h0 : c0.CpuCores = none)
    (hn : ∀ n, o = some n → (n : Int) ≤ 2 ^ 63 - 1) :
    List.foldlM Constraints.setRaw c0 ((coresTokens o).map String.toList ++ rest) =
      List.foldlM Constraints.setRaw { c0 with CpuCores := o } rest := by
  cases o with
  | none =>
      have hc : ({ c0 with CpuCores := none } : Constraints) = c0 := by
        rcases c0 with ⟨A0, C0, P0, M0⟩
        dsimp at h0
        rw [h0]
      rw [hc]
      rfl
  | some n =>
      show List.foldlM Constraints.setRaw c0
        (("cpu-cores=" ++ uintStr n).toList :: rest) = _
      rw [List.foldlM_cons, setRaw_cores_token c0 n h0 (hn n rfl)]
      rfl

/-- Helper: fold step over the optional cpu-power token. -/
theorem fold_power (o : Option Nat) (rest : List (List Char))
    (c0 : Constraints) (h0 : c0.CpuPower = none)
    (hn : ∀ n, o = some n → (n : Int) ≤ 2 ^ 63 - 1) :
    List.foldlM Constraints.setRaw c0 ((powerTokens o).map String.toList ++ rest) =
      List.foldlM Constraints.setRaw { c0 with CpuPower := o } rest := by
  cases o with
  | none =>
      have hc : ({ c0 with CpuPower := none } : Constraints) = c0 := by
        rcases c0 with ⟨A0, C0, P0, M0⟩
        dsimp at h0
        rw [h0]
      rw [hc]
      rfl
  | some n =>
      show List.foldlM Constraints.setRaw c0
        (("cpu-power=" ++ uintStr n).toList :: rest) = _
      rw [List.foldlM_cons, setRaw_power_token c0 n h0 (hn n rfl)]
      rfl

/-- Helper: fold step over the optional mem token. -/
theorem fold_mem (o : Option Nat) (c0 : Constraints) (h0 : c0.Mem = none) :
    List.foldlM Constraints.setRaw c0 ((memTokens o).map String.toList) =
      Except.ok { c0 with Mem := o } := by
  cases o with
  | none =>
      have hc : ({ c0 with Mem := none } : Constraints) = c0 := by
        rcases c0 with ⟨A0, C0, P0, M0⟩
        dsimp at h0
        rw [h0]
      rw [hc]
      rfl
  | some n =>
      show List.foldlM Constraints.setRaw c0
        [("mem=" ++ (if uintStr n = "" then "" else uintStr n ++ "M")).toList] =
        _
      rw [List.foldlM_cons, setRaw_mem_token c0 n h0]
      rfl

/-- Helper: the canonical token fold rebuilds the constraints value. -/
theorem fold_canonical (c : Constraints) (hv : ValidC c) :
    List.foldlM Constraints.setRaw emptyConstraints
      ((constraintTokens c).map String.toList) = Except.ok c := by
  rcases c with ⟨A, C, P, M⟩
  obtain ⟨hva, hvc, hvp⟩ := hv
  unfold constraintTokens
  simp only [List.map_append]
  rw [List.append_assoc, List.append_assoc]
  rw [fold_arch A _ emptyConstraints rfl hva]
  rw [fold_cores C _ _ rfl hvc]
  rw [fold_power P _ _ rfl hvp]
  rw [fold_mem M _ rfl]

/-- Helper: membership form of a decidable all-spacefree check. -/
theorem mem_all_spacefree {l : List Char}
    (hall : l.all (fun ch => !(isSpaceChar ch)) = true) {ch : Char}
    (h : ch ∈ l) : isSpaceChar ch = false := by
  rw [List.all_eq_true] at hall
  have := hall ch h
  simpa using this

/-- Helper: every rendered token is non-empty and whitespace-free. -/
theorem constraintTokens_ok (c : Constraints) (hv : ValidC c) :
    ∀ t ∈ (constraintTokens c).map String.toList,
      t ≠ [] ∧ ∀ ch ∈ t, isSpaceChar ch = false := by
  have hdigits : ∀ n : Nat, ∀ ch ∈ (uintStr n).toList, isSpaceChar ch = false := by
    intro n ch hch
    rw [uintStr_toList] at hch
    by_cases hz : n = 0
    · rw [if_pos hz] at hch; cases hch
    · rw [if_neg hz] at hch
      exact (digit_char_facts ch
        ((natDigits_spec n (by omega)).2.1 ch hch)).2.2.2
  intro t ht
  rw [List.mem_map] at ht
  obtain ⟨s, hs, rfl⟩ := ht
  unfold constraintTokens at hs
  rcases List.mem_append.mp hs with hs1 | hsm
  · rcases List.mem_append.mp hs1 with hs2 | hsp
    · rcases List.mem_append.mp hs2 with hsa | hsc
      · rcases hA : c.Arch with _ | a
        · rw [hA] at hsa; cases hsa
        · rw [hA] at hsa
          have hsv := hv.1 a hA
          rw [show archTokens (some a) = ["arch=" ++ a] from rfl,
            List.mem_singleton] at hsa
          subst hsa
          rcases hsv with h | h | h | h <;> subst h <;>
            exact ⟨by decide, fun ch hch => mem_all_spacefree (by decide) hch⟩
      · rcases hC : c.CpuCores with _ | n
        · rw [hC] at hsc; cases hsc
        · rw [hC] at hsc
          rw [show coresTokens (some n) = ["cpu-cores=" ++ uintStr n] from rfl,
            List.mem_singleton] at hsc
          subst hsc
          refine ⟨by simp, ?_⟩
          intro ch hch
          rcases List.mem_append.mp hch with hp | hd
          · exact mem_all_spacefree (by decide) hp
          · exact hdigits n ch hd
    · rcases hP : c.CpuPower with _ | n
      · rw [hP] at hsp; cases hsp
      · rw [hP] at hsp
        rw [show powerTokens (some n) = ["cpu-power=" ++ uintStr n] from rfl,
          List.mem_singleton] at hsp
        subst hsp
        refine ⟨by simp, ?_⟩
        intro ch hch
        rcases List.mem_append.mp hch with hp | hd
        · exact mem_all_spacefree (by decide) hp
        · exact hdigits n ch hd
  · rcases hM : c.Mem with _ | n
    · rw [hM] at hsm; cases hsm
    · rw [hM] at hsm
      rw [show memTokens (some n) =
          ["mem=" ++ (if uintStr n = "" then "" else uintStr n ++ "M")] from rfl,
        List.mem_singleton] at hsm
      subst hsm
      by_cases hz : uintStr n = ""
      · rw [hz, if_pos rfl]
        exact ⟨by simp, fun ch hch => mem_all_spacefree (by decide) hch⟩
      · rw [if_neg hz]
        refine ⟨by simp, ?_⟩
        intro ch hch
        have hsh : ("mem=" ++ (uintStr n ++ "M")).toList =
            "mem=".toList ++ ((uintStr n).toList ++ ['M']) := by
          show "mem=".toList ++ (uintStr n ++ "M").toList = _
          rw [show (uintStr n ++ "M").toList = (uintStr n).toList ++ ['M'] from rfl]
        rw [hsh] at hch
        rcases List.mem_append.mp hch with hp | hd
        · exact mem_all_spacefree (by decide) hp
        · rcases List.mem_append.mp hd with hd1 | hd2
          · exact hdigits n ch hd1
          · rw [List.mem_singleton] at hd2
            subst hd2
            decide

/-- Helper: the token fold of parseArg coincides with a plain setRaw fold
when no token is empty. -/
theorem foldlM_skip_empty (ts : List (List Char)) (c0 : Constraints)
    (h : ∀ t ∈ ts, t ≠ []) :
    List.foldlM
      (fun acc raw => if raw = [] then Except.ok acc else acc.setRaw raw)
      c0 ts = List.foldlM Constraints.setRaw c0 ts := by
  induction ts generalizing c0 with
  | nil => rfl
  | cons t r ih =>
      rw [List.foldlM_cons, List.foldlM_cons]
      rw [if_neg (h t (List.mem_cons_self t r))]
      cases hs : Constraints.setRaw c0 t with
      | ok c1 =>
          show Except.ok c1 >>= _ = Except.ok c1 >>= _
          rw [show (Except.ok c1 >>= fun c2 => List.foldlM
              (fun acc raw => if raw = [] then Except.ok acc else acc.setRaw raw)
              c2 r) = List.foldlM
              (fun acc raw => if raw = [] then Except.ok acc else acc.setRaw raw)
              c1 r from rfl]
          rw [show (Except.ok c1 >>= fun c2 =>
              List.foldlM Constraints.setRaw c2 r) =
              List.foldlM Constraints.setRaw c1 r from rfl]
          exact ih c1 (fun x hx => h x (List.mem_cons_of_mem t hx))
      | error e => rfl

/-- Helper: round trip for any valid constraints value. -/
theorem roundtrip_core (c : Constraints) (hv : ValidC c) :
    ParseConstraints [Constraints.String c] = Except.ok c := by
  unfold ParseConstraints
  rw [List.foldlM_cons]
  have hnil : ∀ c2 : Constraints,
      List.foldlM parseArg c2 ([] : List GoStr) = Except.ok c2 := fun c2 => rfl
  have hbind : ∀ x : Except GoStr Constraints,
      (x >>= fun c2 => List.foldlM parseArg c2 ([] : List GoStr)) = x := by
    intro x
    cases x with
    | ok a => rfl
    | error e => rfl
  rw [hbind]
  unfold parseArg
  unfold Constraints.String
  rw [strJoin_toList]
  by_cases hts : constraintTokens c = []
  · rw [hts]
    have hce : c = emptyConstraints := by
      rcases c with ⟨A, C, P, M⟩
      unfold constraintTokens at hts
      cases A <;> cases C <;> cases P <;> cases M <;>
        first
        | rfl
        | (exfalso; revert hts; simp [archTokens, coresTokens, powerTokens,
            memTokens])
    rw [hce]
    rfl
  · have htok := constraintTokens_ok c hv
    have hmapne : (constraintTokens c).map String.toList ≠ [] := by
      intro hc
      exact hts (List.map_eq_nil_iff.mp hc)
    have hends := joinChars_ends _ htok
    rw [trimChars_of_ends _ hends.1 hends.2]
    rw [splitSpaces_joinChars _ hmapne
      (fun t ht ch hc => by
        have := (htok t ht).2 ch hc
        intro hsp
        rw [hsp] at this
        exact absurd this (by decide))]
    rw [foldlM_skip_empty _ _ (fun t ht => (htok t ht).1)]
    exact fold_canonical c hv

/-- Helper: fold preservation of a predicate over Except. -/
theorem foldlM_except_preserve {α : Type} (P : Constraints → Prop)
    (f : Constraints → α → Except GoStr Constraints)
    (hf : ∀ b x b2, P b → f b x = Except.ok b2 → P b2) :
    ∀ (l : List α) (b0 b : Constraints), P b0 →
      List.foldlM f b0 l = Except.ok b → P b := by
  intro l
  induction l with
  | nil =>
      intro b0 b hP h
      rw [show List.foldlM f b0 ([] : List α) = Except.ok b0 from rfl] at h
      cases h
      exact hP
  | cons x r ih =>
      intro b0 b hP h
      rw [List.foldlM_cons] at h
      cases hx : f b0 x with
      | ok b1 =>
          rw [hx] at h
          exact ih b1 b (hf b0 x b1 hP hx) h
      | error e =>
          rw [hx] at h
          cases h

/-- Helper: appending the empty string. -/
theorem str_append_empty (s : GoStr) : s ++ "" = s := by
  rcases s with ⟨data⟩
  show String.mk (data ++ []) = String.mk data
  rw [List.append_nil]

/-- Helper: associativity of string append. -/
theorem str_append_assoc (a b c : GoStr) : a ++ b ++ c = a ++ (b ++ c) := by
  rcases a with ⟨da⟩
  rcases b with ⟨db⟩
  rcases c with ⟨dc⟩
  show String.mk (da ++ db ++ dc) = String.mk (da ++ (db ++ dc))
  rw [List.append_assoc]

/-- Helper: int64 bound of parseUint64 results. -/
theorem parseUint64_range (l : List Char) (v : Nat)
    (h : parseUint64 l = Except.ok v) : (v : Int) ≤ 2 ^ 63 - 1 := by
  unfold parseUint64 at h
  by_cases h1 : l = []
  · rw [if_pos h1] at h
    cases h
    decide
  · rw [if_neg h1] at h
    cases ha : atoiModel l with
    | none => rw [ha] at h; cases h
    | some i =>
        rw [ha] at h
        dsimp only at h
        by_cases h2 : i < 0
        · rw [if_pos h2] at h; cases h
        · rw [if_neg h2] at h
          cases h
          have hrange : -(2 ^ 63) ≤ i ∧ i ≤ 2 ^ 63 - 1 := by
            unfold atoiModel at ha
            cases l with
            | nil => exact absurd rfl h1
            | cons ch t =>
                dsimp only at ha
                by_cases hc1 : ch = '+'
                · rw [if_pos hc1] at ha
                  exact atoiCore_range _ _ _ ha
                · rw [if_neg hc1] at ha
                  by_cases hc2 : ch = '-'
                  · rw [if_pos hc2] at ha
                    exact atoiCore_range _ _ _ ha
                  · rw [if_neg hc2] at ha
                    exact atoiCore_range _ _ _ ha
          rw [Int.toNat_of_nonneg (by omega)]
          exact hrange.2

/-- Helper: setRaw preserves the validity conditions. -/
theorem setRaw_validC (c c2 : Constraints) (raw : List Char)
    (hv : ValidC c) (h : Constraints.setRaw c raw = Except.ok c2) :
    ValidC c2 := by
  unfold Constraints.setRaw at h
  cases hsp : splitAtEq raw with
  | none => rw [hsp] at h; cases h
  | some p =>
      rw [hsp] at h
      obtain ⟨nm, vl⟩ := p
      dsimp only at h
      by_cases h1 : nm = []
      · rw [if_pos h1] at h; cases h
      · rw [if_neg h1] at h
        by_cases h2 : nm = "arch".toList
        · rw [if_pos h2] at h
          cases hs : Constraints.setArch c vl with
          | error e => rw [hs] at h; cases h
          | ok x =>
              rw [hs] at h
              cases h
              unfold Constraints.setArch at hs
              by_cases h3 : c.Arch.isSome
              · rw [if_pos h3] at hs; cases hs
              · rw [if_neg h3] at hs
                by_cases h4 : vl = [] ∨ vl = "amd64".toList ∨
                    vl = "i386".toList ∨ vl = "arm".toList
                · rw [if_pos h4] at hs
                  cases hs
                  refine ⟨?_, hv.2.1, hv.2.2⟩
                  intro a ha
                  rw [show ({ c with Arch := some (String.mk vl) } :
                    Constraints).Arch = some (String.mk vl) from rfl,
                    Option.some_inj] at ha
                  subst ha
                  rcases h4 with h | h | h | h <;> subst h
                  · exact Or.inl (by decide)
                  · exact Or.inr (Or.inl (by decide))
                  · exact Or.inr (Or.inr (Or.inl (by decide)))
                  · exact Or.inr (Or.inr (Or.inr (by decide)))
                · rw [if_neg h4] at hs; cases hs
        · rw [if_neg h2] at h
          by_cases h3 : nm = "cpu-cores".toList
          · rw [if_pos h3] at h
            cases hs : Constraints.setCpuCores c vl with
            | error e => rw [hs] at h; cases h
            | ok x =>
                rw [hs] at h
                cases h
                unfold Constraints.setCpuCores at hs
                by_cases h4 : c.CpuCores.isSome
                · rw [if_pos h4] at hs; cases hs
                · rw [if_neg h4] at hs
                  cases hp : parseUint64 vl with
                  | error e => rw [hp] at hs; cases hs
                  | ok v =>
                      rw [hp] at hs
                      cases hs
                      refine ⟨hv.1, ?_, hv.2.2⟩
                      intro n hn
                      rw [show ({ c with CpuCores := some v } :
                        Constraints).CpuCores = some v from rfl,
                        Option.some_inj] at hn
                      subst hn
                      exact parseUint64_range vl v hp
          · rw [if_neg h3] at h
            by_cases h5 : nm = "cpu-power".toList
            · rw [if_pos h5] at h
              cases hs : Constraints.setCpuPower c vl with
              | error e => rw [hs] at h; cases h
              | ok x =>
                  rw [hs] at h
                  cases h
                  unfold Constraints.setCpuPower at hs
                  by_cases h4 : c.CpuPower.isSome
                  · rw [if_pos h4] at hs; cases hs
                  · rw [if_neg h4] at hs
                    cases hp : parseUint64 vl with
                    | error e => rw [hp] at hs; cases hs
                    | ok v =>
                        rw [hp] at hs
                        cases hs
                        refine ⟨hv.1, hv.2.1, ?_⟩
                        intro n hn
                        rw [show ({ c with CpuPower := some v } :
                          Constraints).CpuPower = some v from rfl,
                          Option.some_inj] at hn
                        subst hn
                        exact parseUint64_range vl v hp
            · rw [if_neg h5] at h
              by_cases h6 : nm = "mem".toList
              · rw [if_pos h6] at h
                cases hs : Constraints.setMem c vl with
                | error e => rw [hs] at h; cases h
                | ok x =>
                    rw [hs] at h
                    cases h
                    unfold Constraints.setMem at hs
                    by_cases h4 : c.Mem.isSome
                    · rw [if_pos h4] at hs; cases hs
                    · rw [if_neg h4] at hs
                      by_cases h7 : vl = []
                      · rw [if_pos h7] at hs
                        cases hs
                        exact ⟨hv.1, hv.2.1, hv.2.2⟩
                      · rw [if_neg h7] at hs
                        cases hf : parseFloatModel (Constraints.memPick vl).2 with
                        | none => rw [hf] at hs; cases hs
                        | some v =>
                            rw [hf] at hs
                            dsimp only at hs
                            by_cases h8 : v.neg = true ∧ v.num ≠ 0
                            · rw [if_pos h8] at hs; cases hs
                            · rw [if_neg h8] at hs
                              cases hs
                              exact ⟨hv.1, hv.2.1, hv.2.2⟩
              · rw [if_neg h6] at h; cases h

/-- Helper: the validity conditions hold for the zero value and are
preserved by every parse step. -/
theorem validC_empty : ValidC emptyConstraints := by
  unfold ValidC
  refine ⟨?_, ?_, ?_⟩ <;> intro x hx <;> cases hx

/-- Helper: parseArg preserves validity. -/
theorem parseArg_validC (b b2 : Constraints) (arg : GoStr) (hb : ValidC b)
    (h : parseArg b arg = Except.ok b2) : ValidC b2 := by
  unfold parseArg at h
  refine foldlM_except_preserve ValidC _ ?_ _ b b2 hb h
  intro b0 raw b1 hP hx
  by_cases hraw : raw = []
  · rw [if_pos hraw] at hx
    cases hx
    exact hP
  · rw [if_neg hraw] at hx
    exact setRaw_validC b0 b1 raw hP hx

/-- Helper: every result of ParseConstraints satisfies the validity
conditions. -/
theorem ParseConstraints_validC (args : List GoStr) (c : Constraints)
    (h : ParseConstraints args = Except.ok c) : ValidC c := by
  unfold ParseConstraints at h
  refine foldlM_except_preserve ValidC _ ?_ _ _ _ validC_empty h
  intro b x b2 hP hx
  exact parseArg_validC b b2 x hP hx

/-- Helper: the renderer's token list agrees with the spec's canonical
token list. -/
theorem tokens_eq_spec (c : Constraints) :
    constraintTokens c = canonicalTokensSpec c := by
  rcases c with ⟨A, C, P, M⟩
  have huint : ∀ n : Nat, ¬n = 0 → uintStr n = String.mk (natDigits n) := by
    intro n hz
    unfold uintStr
    rw [if_neg hz]
  have hC : coresTokens C = (match C with
      | none => []
      | some n => [if n = 0 then "cpu-cores="
          else "cpu-cores=" ++ String.mk (natDigits n)]) := by
    cases C with
    | none => rfl
    | some n =>
        show ["cpu-cores=" ++ uintStr n] = _
        by_cases hz : n = 0
        · rw [hz, show uintStr 0 = "" from rfl, str_append_empty]
          simp
        · rw [huint n hz]
          simp [hz]
  have hP : powerTokens P = (match P with
      | none => []
      | some n => [if n = 0 then "cpu-power="
          else "cpu-power=" ++ String.mk (natDigits n)]) := by
    cases P with
    | none => rfl
    | some n =>
        show ["cpu-power=" ++ uintStr n] = _
        by_cases hz : n = 0
        · rw [hz, show uintStr 0 = "" from rfl, str_append_empty]
          simp
        · rw [huint n hz]
          simp [hz]
  have hM : memTokens M = (match M with
      | none => []
      | some n => [if n = 0 then "mem="
          else "mem=" ++ String.mk (natDigits n) ++ "M"]) := by
    cases M with
    | none => rfl
    | some n =>
        show ["mem=" ++ (if uintStr n = "" then "" else uintStr n ++ "M")] = _
        by_cases hz : n = 0
        · rw [if_pos ((uintStr_eq_empty_iff n).mpr hz), str_append_empty]
          simp [hz]
        · rw [if_neg (fun hc => hz ((uintStr_eq_empty_iff n).mp hc)),
            huint n hz, ← str_append_assoc]
          simp [hz]
  show archTokens A ++ coresTokens C ++ powerTokens P ++ memTokens M = _
  rw [hC, hP, hM]
  rfl

/-- C8: for every parseable constraints value c,
ParseConstraints(c.String()) equals c; the rendered form is the canonical
token sequence worded by the spec (order arch, cpu-cores, cpu-power, mem,
absent fields omitted, zero-valued fields rendered as name= with no
value), space-joined; and ParseConstraints("mem=4G cpu-cores=2") yields a
value whose String() is "cpu-cores=2 mem=4096M". -/
theorem c8_constraints_roundtrip :
    (∀ args c, ParseConstraints args = Except.ok c →
      ParseConstraints [Constraints.String c] = Except.ok c) ∧
    (∀ c, Constraints.String c = strJoin (canonicalTokensSpec c)) ∧
    ((ParseConstraints ["mem=4G cpu-cores=2"]).map Constraints.String =
      Except.ok "cpu-cores=2 mem=4096M") := by
  refine ⟨?_, ?_, ?_⟩
  · intro args c h
    exact roundtrip_core c (ParseConstraints_validC args c h)
  · intro c
    unfold Constraints.String
    rw [tokens_eq_spec]
  · decide

/-- Witness for C8 at the concrete example value. -/
theorem c8_constraints_roundtrip_witness :
    ParseConstraints [Constraints.String
      (⟨none, some 2, none, some 4096⟩ : Constraints)] =
      Except.ok (⟨none, some 2, none, some 4096⟩ : Constraints) :=
  c8_constraints_roundtrip.1 ["mem=4G cpu-cores=2"] _ (by decide)

/-! ZooKeeper bootstrap (state/open.go: open, Open, Initialize). -/

/-- State of the ZooKeeper ensemble as seen through Create and Exists: the
list of existing node paths. -/
structure ZkState where
  nodes : List GoStr
deriving DecidableEq, Repr

/-- Model of zk.Exists. -/
def zkExists (zk : ZkState) (path : GoStr) : Bool := path ∈ zk.nodes

/-- Model of zk.Create with empty data and world-readable permissions:
fails when the node already exists. -/
def zkCreate (zk : ZkState) (path : GoStr) : Except GoStr ZkState :=
  if path ∈ zk.nodes then Except.error ("node already exists: " ++ path)
  else Except.ok ⟨zk.nodes ++ [path]⟩

/-- Skeleton node paths created by initialize, in source order. -/
def skeletonPaths : List GoStr :=
  ["/charms", "/services", "/machines", "/units", "/relations"]

/-- Model of State.initialize: if the /initialized sentinel exists, return
immediately; otherwise create each skeleton node in source order and the
/initialized sentinel last, stopping at the first error. The second
component is the trace of created paths in creation order. -/
def initializeState (zk : ZkState) : Except GoStr (ZkState × List GoStr) :=
  if zkExists zk "/initialized" then Except.ok (zk, [])
  else
    (skeletonPaths ++ ["/initialized"]).foldlM
      (fun acc p => (zkCreate acc.1 p).map (fun z2 => (z2, acc.2 ++ [p])))
      (zk, [])

/-- Connection info (Info in state/open.go). -/
structure ConnInfo where
  Addrs : List GoStr
deriving DecidableEq, Repr

/-- Environment-supplied outcome of dialing the ensemble. -/
structure DialWorld where
  dialErr : Option GoStr
  sessionOk : Bool
deriving DecidableEq, Repr

/-- Model of the open helper: an empty address list fails immediately with
"no zookeeper addresses" before any dial; otherwise the dial and the first
session event decide. The second component records whether a dial was
attempted. -/
def openSt (w : DialWorld) (info : ConnInfo) : Except GoStr Unit × Bool :=
  if info.Addrs.length = 0 then (Except.error "no zookeeper addresses", false)
  else
    match w.dialErr with
    | some e => (Except.error e, true)
    | none =>
        if w.sessionOk then (Except.ok (), true)
        else (Except.error "Could not connect to zookeeper", true)

/-- Model of Open: open, then wait for the /initialized sentinel (the wait
outcome is environment-supplied and irrelevant when open fails). -/
def OpenModel (w : DialWorld) (waitOk : Bool) (info : ConnInfo) :
    Except GoStr Unit × Bool :=
  match openSt w info with
  | (Except.error e, dialed) => (Except.error e, dialed)
  | (Except.ok _, dialed) =>
      (if waitOk then Except.ok ()
       else Except.error "timed out waiting for initialization", dialed)

/-- Model of Initialize: open, then initialize against the zk state. -/
def InitializeModel (w : DialWorld) (zk : ZkState) (info : ConnInfo) :
    Except GoStr ZkState × Bool :=
  match openSt w info with
  | (Except.error e, dialed) => (Except.error e, dialed)
  | (Except.ok _, dialed) =>
      match initializeState zk with
      | Except.error e => (Except.error e, dialed)
      | Except.ok (z2, _) => (Except.ok z2, dialed)

/-- Helper: creating a list of fresh distinct nodes succeeds and appends
them in order, tracing exactly the created paths. -/
theorem create_fold (paths : List GoStr) :
    ∀ (zk : ZkState) (acc : List GoStr), paths.Nodup →
      (∀ p ∈ paths, p ∉ zk.nodes) →
      paths.foldlM
        (fun acc2 p => (zkCreate acc2.1 p).map (fun z2 => (z2, acc2.2 ++ [p])))
        (zk, acc) = Except.ok (⟨zk.nodes ++ paths⟩, acc ++ paths) := by
  induction paths with
  | nil =>
      intro zk acc _ _
      show pure (zk, acc) = Except.ok (⟨zk.nodes ++ []⟩, acc ++ [])
      rw [List.append_nil, List.append_nil]
      rfl
  | cons p t ih =>
      intro zk acc hnd hfresh
      rw [List.nodup_cons] at hnd
      rw [List.foldlM_cons]
      rw [show zkCreate zk p = Except.ok ⟨zk.nodes ++ [p]⟩ from by
        unfold zkCreate
        rw [if_neg (hfresh p (List.mem_cons_self p t))]]
      have hrec := ih ⟨zk.nodes ++ [p]⟩ (acc ++ [p]) hnd.2 (by
        intro q hq
        rw [show (⟨zk.nodes ++ [p]⟩ : ZkState).nodes = zk.nodes ++ [p] from rfl]
        rw [List.mem_append, List.mem_singleton]
        push_neg
        exact ⟨hfresh q (List.mem_cons_of_mem p hq),
          fun hc => hnd.1 (hc ▸ hq)⟩)
      rw [List.append_assoc, List.append_assoc] at hrec
      exact hrec

/-- C9: initialize creates exactly the skeleton nodes /charms, /services,
/machines, /units, /relations and the /initialized sentinel, the sentinel
created last, when none of them exist yet; and when the sentinel already
exists it succeeds without creating any node. -/
theorem c9_initialize (zk : ZkState) :
    (zkExists zk "/initialized" = true → initializeState zk = Except.ok (zk, [])) ∧
    ((∀ p ∈ skeletonPaths ++ ["/initialized"], p ∉ zk.nodes) →
      initializeState zk =
        Except.ok (⟨zk.nodes ++ (skeletonPaths ++ ["/initialized"])⟩,
          skeletonPaths ++ ["/initialized"]) ∧
      (skeletonPaths ++ ["/initialized"]).getLast? = some "/initialized") := by
  constructor
  · intro h
    unfold initializeState
    rw [if_pos h]
  · intro h
    have hsent : zkExists zk "/initialized" = false := by
      unfold zkExists
      simp only [decide_eq_false_iff_not]
      exact h "/initialized" (by decide)
    constructor
    · unfold initializeState
      rw [hsent]
      simp only [Bool.false_eq_true, if_false]
      exact create_fold _ zk [] (by decide) h
    · decide

/-- Witness for C9 on the empty ensemble and on an initialized one. -/
theorem c9_initialize_witness :
    initializeState ⟨[]⟩ =
      Except.ok (⟨["/charms", "/services", "/machines", "/units",
        "/relations", "/initialized"]⟩,
        ["/charms", "/services", "/machines", "/units", "/relations",
          "/initialized"]) ∧
    initializeState ⟨["/initialized"]⟩ = Except.ok (⟨["/initialized"]⟩, []) := by
  constructor
  · exact (( c9_initialize ⟨[]⟩).2 (by decide)).1
  · exact ( c9_initialize ⟨["/initialized"]⟩).1 (by decide)

/-- C10: calling open (hence Open or Initialize) with an empty address
list fails immediately with "no zookeeper addresses" and no dial is
attempted. -/
theorem c10_open_no_addrs (w : DialWorld) (waitOk : Bool) (zk : ZkState)
    (info : ConnInfo) (h : info.Addrs = []) :
    openSt w info = (Except.error "no zookeeper addresses", false) ∧
    OpenModel w waitOk info = (Except.error "no zookeeper addresses", false) ∧
    InitializeModel w zk info =
      (Except.error "no zookeeper addresses", false) := by
  have hopen : openSt w info = (Except.error "no zookeeper addresses", false) := by
    unfold openSt
    rw [if_pos (by rw [h]; rfl)]
  refine ⟨hopen, ?_, ?_⟩
  · unfold OpenModel
    rw [hopen]
  · unfold InitializeModel
    rw [hopen]

/-- Witness for C10 at a concrete world and empty address list. -/
theorem c10_open_no_addrs_witness :
    openSt ⟨none, true⟩ ⟨[]⟩ = (Except.error "no zookeeper addresses", false) :=
  (c10_open_no_addrs ⟨none, true⟩ true ⟨[]⟩ ⟨[]⟩ rfl).1

/-! The multiwatcher StoreManager, modelled from the spec and pinned by the
TestHandle*, TestRespond* and watcherState tests. Watchers are identified
by numbers; a repliless blocking Next call is a pending request id; the
reply channels are represented by the list of emitted Reply events. -/

/-- Reply event emitted by the manager: which watcher and request, whether
the request succeeded, and the delivered deltas. -/
structure Reply where
  wid : Nat
  rid : Nat
  ok : Bool
  changes : List Delta
deriving DecidableEq, Repr

/-- Association-list lookup by watcher id. -/
def lookupAssoc {β : Type} (l : List (Nat × β)) (w : Nat) : Option β :=
  (l.find? (fun p => p.1 = w)).map (fun p => p.2)

/-- Association-list update by watcher id: replace an existing binding or
append a fresh one. -/
def setAssoc {β : Type} (l : List (Nat × β)) (w : Nat) (v : β) : List (Nat × β) :=
  if (l.find? (fun p => p.1 = w)).isSome then
    l.map (fun p => if p.1 = w then (w, v) else p)
  else l ++ [(w, v)]

/-- Association-list removal by watcher id. -/
def removeAssoc {β : Type} (l : List (Nat × β)) (w : Nat) : List (Nat × β) :=
  l.filter (fun p => p.1 ≠ w)

/-- Modelled from the spec: the StoreManager state: the Store, the revno
each watcher has been told about (absent means zero), the per-watcher LIFO
lists of pending request ids (newest first), and the set of stopped
watchers. -/
structure StoreManager where
  all : Store
  watchers : List (Nat × Int)
  waiting : List (Nat × List Nat)
  stopped : List Nat
deriving DecidableEq, Repr

/-- Revno last told to a watcher (zero for a fresh watcher). -/
def wrevno (sm : StoreManager) (w : Nat) : Int :=
  (lookupAssoc sm.watchers w).getD 0

/-- Pending request ids of a watcher, newest first. -/
def waitingOf (sm : StoreManager) (w : Nat) : List Nat :=
  (lookupAssoc sm.waiting w).getD []

/-- Modelled from the spec: the refcount protocol step of respond. Having
delivered `changes` to a watcher whose previous revno was `revno`: each
alive delta seen for the first time (creationRevno > revno) increments the
entry's refCount; each removal delta decrements it via decRef, which may
garbage-collect the tombstone. -/
def seenOne (revno : Int) (acc : Store) (d : Delta) : Store :=
  match acc.lookup d.entity.eid with
  | none => acc
  | some e =>
      if d.removed then acc.decRef d.entity.eid
      else if revno < e.creationRevno then
        acc.setEntry d.entity.eid { e with refCount := e.refCount + 1 }
      else acc

/-- The refcount protocol over a whole delivered batch. -/
def Store.seen (a : Store) (revno : Int) (changes : List Delta) : Store :=
  changes.foldl (seenOne revno) a

/-- Boolean form of "the watcher with last-seen revno wr has seen this
entry alive and has not yet been told of its removal". -/
def seenAliveB (wr : Int) (e : entityEntry) : Bool :=
  decide (e.creationRevno ≤ wr) && (!e.removed || decide (wr < e.revno))

/-- Modelled from the spec: the stop-path walk of handle: if the stopped
watcher has seen at least one revision, decRef every entry it had seen
alive and not yet been told was removed. -/
def leave (a : Store) (wr : Int) : Store :=
  if 0 < wr then
    ((a.list.filter (fun p => seenAliveB wr p.2)).map Prod.fst).foldl
      Store.decRef a
  else a

/-- Modelled from the spec: handle of a Next request: prepend the request
to the watcher's pending list (newest first); a stopped watcher's Next
never reaches the manager. -/
def handleNext (sm : StoreManager) (w r : Nat) : StoreManager × List Reply :=
  if w ∈ sm.stopped then (sm, [])
  else ({ sm with waiting := setAssoc sm.waiting w (r :: waitingOf sm w) }, [])

/-- Modelled from the spec: handle of a stop request: reply false to every
pending request of the watcher (newest first), drop its pending list, and
run the leave walk over the store. -/
def handleStop (sm : StoreManager) (w : Nat) : StoreManager × List Reply :=
  if w ∈ sm.stopped then (sm, [])
  else
    ({ all := leave sm.all (wrevno sm w),
       watchers := sm.watchers,
       waiting := removeAssoc sm.waiting w,
       stopped := w :: sm.stopped },
      (waitingOf sm w).map (fun r => ⟨w, r, false, []⟩))

/-- Modelled from the spec: the respond step for one watcher: if it has a
pending request and the store holds changes since its revno, pop the most
recent request, reply true with those changes, advance the watcher to
latestRevno and apply the refcount protocol; otherwise leave it
untouched. -/
def respondOne (sm : StoreManager) (w : Nat) : StoreManager × List Reply :=
  match waitingOf sm w with
  | [] => (sm, [])
  | r :: rest =>
      if sm.all.ChangesSince (wrevno sm w) = [] then (sm, [])
      else
        ({ all := sm.all.seen (wrevno sm w) (sm.all.ChangesSince (wrevno sm w)),
           watchers := setAssoc sm.watchers w sm.all.latestRevno,
           waiting := setAssoc sm.waiting w rest,
           stopped := sm.stopped },
         [⟨w, r, true, sm.all.ChangesSince (wrevno sm w)⟩])

/-- Modelled from the spec: respond serves every watcher with pending
requests once. -/
def StoreManager.respond (sm : StoreManager) : StoreManager × List Reply :=
  (sm.waiting.map Prod.fst).foldl
    (fun acc w =>
      ((respondOne acc.1 w).1, acc.2 ++ (respondOne acc.1 w).2)) (sm, [])

/-- Events driving the manager loop: a backing change (Changed translates
a store-level event into Update with the fetched info, or nil on
not-found), a Next request, a watcher stop, and a respond pass. -/
inductive Op where
  | change (id : InfoId) (info : Option EntityInfo)
  | next (w : Nat) (r : Nat)
  | stopw (w : Nat)
  | respond
deriving DecidableEq, Repr

/-- One manager step. -/
def step (sm : StoreManager) : Op → StoreManager × List Reply
  | Op.change id info => ({ sm with all := sm.all.Update id info }, [])
  | Op.next w r => handleNext sm w r
  | Op.stopw w => handleStop sm w
  | Op.respond => sm.respond

/-- Initial manager state. -/
def initSM : StoreManager := ⟨Store.empty, [], [], []⟩

/-- Run of the manager over an op sequence, accumulating all replies in
order. -/
def run (ops : List Op) : StoreManager × List Reply :=
  ops.foldl (fun acc op => (((step acc.1 op).1), acc.2 ++ (step acc.1 op).2))
    (initSM, [])

/-- Deltas delivered to one watcher: the concatenated changes of its
successful replies, in order. -/
def deliveredTo (rs : List Reply) (w : Nat) : List Delta :=
  ((rs.filter (fun rp => rp.wid = w && rp.ok)).map (fun rp => rp.changes)).flatten

/-- The view of the world a watcher client builds from its deltas
(watcherState.update in the test suite): alive deltas insert the entity
id, removal deltas must find it present and remove it; a removal of an
absent entity is the violation the test suite panics on, modelled as
none. -/
def applyDelta : Option (List InfoId) → Delta → Option (List InfoId)
  | none, _ => none
  | some v, d =>
      if d.removed then
        if d.entity.eid ∈ v then some (v.erase d.entity.eid) else none
      else if d.entity.eid ∈ v then some v else some (d.entity.eid :: v)

/-- A watcher client's view after a delta sequence. -/
def viewOf (ds : List Delta) : Option (List InfoId) :=
  ds.foldl applyDelta (some [])

/-- Propositional form of seenAliveB. -/
def seenAliveP (wr : Int) (e : entityEntry) : Prop :=
  e.creationRevno ≤ wr ∧ (e.removed = false ∨ wr < e.revno)

/-- Active watchers counted by an entry's refCount: not stopped, and having
seen the entry alive without having been told of its removal. -/
def watchersSeeing (sm : StoreManager) (e : entityEntry) : List Nat :=
  (sm.watchers.map Prod.fst).filter
    (fun w => decide (w ∉ sm.stopped) && seenAliveB (wrevno sm w) e)

/-- Sanity: the TestRespondMultiple scenario: the newest of two pending
requests from the same watcher is served first, a watcher at the latest
revno gets no reply, and a fresh change serves all remaining requests. -/
theorem managerTest_respondMultiple :
    (run [Op.change ⟨"machine", "0"⟩ (some (machineInfo "0" "")),
      Op.next 0 0, Op.respond,
      Op.next 0 1, Op.respond,
      Op.next 1 2, Op.next 1 3, Op.respond, Op.respond,
      Op.change ⟨"machine", "1"⟩ (some (machineInfo "1" "")),
      Op.respond]).2 =
    [⟨0, 0, true, [⟨false, machineInfo "0" ""⟩]⟩,
     ⟨1, 3, true, [⟨false, machineInfo "0" ""⟩]⟩,
     ⟨0, 1, true, [⟨false, machineInfo "1" ""⟩]⟩,
     ⟨1, 2, true, [⟨false, machineInfo "1" ""⟩]⟩] := by
  decide

/-- Sanity: the TestHandle scenario: stopping a watcher replies false to
its pending requests newest first and leaves other watchers pending. -/
theorem managerTest_handleStop :
    (run [Op.next 0 0, Op.next 0 1, Op.next 1 2, Op.stopw 0, Op.stopw 1]).2 =
    [⟨0, 1, false, []⟩, ⟨0, 0, false, []⟩, ⟨1, 2, false, []⟩] := by
  decide

/-- Sanity: scenario B of the spec: an entity added and removed before a
watcher appears is never delivered to it, and the store is empty with
latestRevno 2. -/
theorem managerTest_lateWatcher :
    (run [Op.change ⟨"machine", "0"⟩ (some (machineInfo "0" "")),
      Op.change ⟨"machine", "0"⟩ none, Op.next 1 0, Op.respond]).2 = [] ∧
    (run [Op.change ⟨"machine", "0"⟩ (some (machineInfo "0" "")),
      Op.change ⟨"machine", "0"⟩ none, Op.next 1 0, Op.respond]).1.all.list = [] ∧
    (run [Op.change ⟨"machine", "0"⟩ (some (machineInfo "0" "")),
      Op.change ⟨"machine", "0"⟩ none, Op.next 1 0,
      Op.respond]).1.all.latestRevno = 2 := by
  decide

/-- Sanity: scenario C of the spec (tombstone retention): a watcher that
saw the entity alive keeps the tombstone until it receives the removal,
after which the tombstone is gone. -/
theorem managerTest_tombstone :
    (run [Op.change ⟨"machine", "0"⟩ (some (machineInfo "0" "")),
      Op.next 0 0, Op.respond,
      Op.change ⟨"machine", "0"⟩ none,
      Op.next 0 1, Op.respond]).2 =
    [⟨0, 0, true, [⟨false, machineInfo "0" ""⟩]⟩,
     ⟨0, 1, true, [⟨true, machineInfo "0" ""⟩]⟩] ∧
    (run [Op.change ⟨"machine", "0"⟩ (some (machineInfo "0" "")),
      Op.next 0 0, Op.respond,
      Op.change ⟨"machine", "0"⟩ none,
      Op.next 0 1, Op.respond]).1.all.list = [] := by
  decide

/-- Helper: find? after a key-targeted map replacement, when the key is
present. -/
theorem find_map_keyed {β : Type} (l : List (Nat × β)) (w : Nat) (v : β)
    (h : (l.find? (fun p => p.1 = w)).isSome = true) :
    (l.map (fun p => if p.1 = w then (w, v) else p)).find? (fun p => p.1 = w) =
      some (w, v) := by
  induction l with
  | nil => simp at h
  | cons p t ih =>
      by_cases hp : p.1 = w
      · simp [List.find?_cons, hp]
      · simp only [List.find?_cons, hp, decide_False, Bool.false_eq_true,
          if_false] at h
        simp only [List.map_cons, if_neg hp, List.find?_cons, hp, decide_False,
          Bool.false_eq_true, if_false]
        exact ih h

/-- Helper: find? for a different key is unchanged by a key-targeted map
replacement. -/
theorem find_map_other {β : Type} (l : List (Nat × β)) (w w2 : Nat) (v : β)
    (hne : w2 ≠ w) :
    (l.map (fun p => if p.1 = w then (w, v) else p)).find? (fun p => p.1 = w2) =
      l.find? (fun p => p.1 = w2) := by
  induction l with
  | nil => rfl
  | cons p t ih =>
      by_cases hp : p.1 = w
      · have hp2 : ¬p.1 = w2 := by rw [hp]; exact fun hc => hne hc.symm
        simp only [List.map_cons, if_pos hp, List.find?_cons]
        rw [show (decide (w = w2)) = false by
          simp only [decide_eq_false_iff_not]
          exact fun hc => hne hc.symm]
        rw [show (decide (p.1 = w2)) = false by
          simp only [decide_eq_false_iff_not]
          exact hp2]
        exact ih
      · simp only [List.map_cons, if_neg hp, List.find?_cons]
        by_cases hp2 : p.1 = w2
        · simp [hp2]
        · rw [show (decide (p.1 = w2)) = false by
            simp only [decide_eq_false_iff_not]; exact hp2]
          exact ih

/-- Helper: find? over an append whose first part has no match. -/
theorem find_append_none {β : Type} (l1 l2 : List (Nat × β))
    (P : Nat × β → Bool) (h : l1.find? P = none) :
    (l1 ++ l2).find? P = l2.find? P := by
  induction l1 with
  | nil => rfl
  | cons p t ih =>
      rw [List.find?_cons] at h
      by_cases hp : P p = true
      · rw [hp] at h; simp at h
      · rw [Bool.not_eq_true] at hp
        rw [hp] at h
        rw [List.cons_append, List.find?_cons, hp]
        exact ih h

/-- Helper: an isSome-false option is none. -/
theorem isSome_false_eq_none {α : Type} {o : Option α}
    (h : o.isSome = false) : o = none := by
  cases o with
  | none => rfl
  | some x => simp at h

/-- Helper: find? over an append whose first part already matches. -/
theorem find_append_some {β : Type} (l1 l2 : List (Nat × β))
    (P : Nat × β → Bool) (p : Nat × β) (h : l1.find? P = some p) :
    (l1 ++ l2).find? P = some p := by
  induction l1 with
  | nil => simp at h
  | cons q t ih =>
      rw [List.find?_cons] at h
      rw [List.cons_append, List.find?_cons]
      by_cases hq : P q = true
      · rw [hq] at h
        rw [hq]
        exact h
      · rw [Bool.not_eq_true] at hq
        rw [hq] at h
        rw [hq]
        exact ih h

/-- Helper: lookupAssoc after setAssoc at the same key. -/
theorem lookupAssoc_setAssoc_self {β : Type} (l : List (Nat × β)) (w : Nat)
    (v : β) : lookupAssoc (setAssoc l w v) w = some v := by
  unfold setAssoc lookupAssoc
  by_cases h : (l.find? (fun p => p.1 = w)).isSome = true
  · rw [if_pos h, find_map_keyed l w v h]
    rfl
  · rw [if_neg h]
    rw [Bool.not_eq_true] at h
    rw [find_append_none l [(w, v)] _ (isSome_false_eq_none h)]
    simp [List.find?_cons]

/-- Helper: lookupAssoc after setAssoc at another key. -/
theorem lookupAssoc_setAssoc_other {β : Type} (l : List (Nat × β))
    (w w2 : Nat) (v : β) (hne : w2 ≠ w) :
    lookupAssoc (setAssoc l w v) w2 = lookupAssoc l w2 := by
  unfold setAssoc lookupAssoc
  by_cases h : (l.find? (fun p => p.1 = w)).isSome = true
  · rw [if_pos h, find_map_other l w w2 v hne]
  · rw [if_neg h]
    cases hf : l.find? (fun p => p.1 = w2) with
    | some p =>
        rw [find_append_some l [(w, v)] _ p hf]
    | none =>
        rw [find_append_none l [(w, v)] _ hf]
        rw [show ([(w, v)].find? (fun p => p.1 = w2)) = none by
          rw [List.find?_eq_none]
          intro q hq
          rw [List.mem_singleton] at hq
          subst hq
          simpa using fun hc => hne hc.symm]

/-- Helper: ChangesSince at or beyond latestRevno is empty for a
well-formed store. -/
theorem changesSince_ge_latest (a : Store) (r : Int) (h : StoreInv a)
    (hr : a.latestRevno ≤ r) : a.ChangesSince r = [] := by
  obtain ⟨hsort, hbounds, _, _, _⟩ := h
  unfold Store.ChangesSince
  rw [sinceSuffix_eq_filter a.list r hsort]
  rw [show a.list.filter (fun p => decide (r < p.2.revno)) = [] by
    rw [List.filter_eq_nil_iff]
    intro p hp
    have := (hbounds p hp).2.2
    simp only [decide_eq_true_iff]
    omega]
  rfl

/-- C5: pending requests are kept newest first (handle prepends, with no
reply emitted), respondOne answers the most recently submitted request,
replying true with the changes since the watcher's last-seen revno and
advancing the watcher's revno to latestRevno while the older requests
remain pending; and a request from a watcher already at latestRevno gets
no reply and remains pending untouched. -/
theorem c5_pending_lifo :
    (∀ (sm : StoreManager) (w r : Nat), w ∉ sm.stopped →
      (handleNext sm w r).2 = [] ∧
      waitingOf (handleNext sm w r).1 w = r :: waitingOf sm w) ∧
    (∀ (sm : StoreManager) (w r : Nat) (rest : List Nat),
      waitingOf sm w = r :: rest →
      ¬ sm.all.ChangesSince (wrevno sm w) = [] →
      (respondOne sm w).2 =
        [⟨w, r, true, sm.all.ChangesSince (wrevno sm w)⟩] ∧
      waitingOf (respondOne sm w).1 w = rest ∧
      wrevno (respondOne sm w).1 w = sm.all.latestRevno) ∧
    (∀ (sm : StoreManager) (w : Nat), StoreInv sm.all →
      wrevno sm w = sm.all.latestRevno →
      respondOne sm w = (sm, [])) := by
  refine ⟨?_, ?_, ?_⟩
  · intro sm w r h
    unfold handleNext
    rw [if_neg h]
    refine ⟨rfl, ?_⟩
    unfold waitingOf
    dsimp only
    rw [lookupAssoc_setAssoc_self]
    rfl
  · intro sm w r rest hw hcs
    unfold respondOne
    rw [hw]
    dsimp only
    rw [if_neg hcs]
    refine ⟨rfl, ?_, ?_⟩
    · unfold waitingOf
      dsimp only
      rw [lookupAssoc_setAssoc_self]
      rfl
    · unfold wrevno
      dsimp only
      rw [lookupAssoc_setAssoc_self]
      rfl
  · intro sm w hinv hrev
    unfold respondOne
    cases hw : waitingOf sm w with
    | nil => rfl
    | cons r rest =>
        dsimp only
        rw [if_pos (by
          rw [hrev]
          exact changesSince_ge_latest sm.all sm.all.latestRevno hinv
            (le_refl _))]

/-- Witness for C5: a prepended request on a fresh manager. -/
theorem c5_pending_lifo_witness :
    (handleNext initSM 0 7).2 = [] ∧
    waitingOf (handleNext initSM 0 7).1 0 = [7] :=
  c5_pending_lifo.1 initSM 0 7 (by decide)

/-- Canonical watcher-stopped error string (ErrWatcherStopped, pinned by
TestRunStop). -/
def ErrWatcherStopped : GoStr := "state watcher was stopped"

/-- Outcome of manager termination: the replies sent while draining and
the terminal error (none for a plain Stop, the backing's error when one
terminated the manager). -/
structure ShutdownResult where
  replies : List Reply
  tombErr : Option GoStr
deriving DecidableEq, Repr

/-- Modelled from the spec: on shutdown (plain Stop or backing error from
Changed or GetAll) the manager replies false to every pending request of
every watcher and records the terminal error. -/
def shutdown (sm : StoreManager) (backingErr : Option GoStr) : ShutdownResult :=
  ⟨(sm.waiting.map (fun p => p.2.map (fun r => (⟨p.1, r, false, []⟩ : Reply)))).flatten,
    backingErr⟩

/-- Modelled from the spec: a pending or future Next call after the
manager terminated surfaces the backing's error, or the canonical
watcher-stopped error on a plain stop. -/
def NextAfterShutdown (res : ShutdownResult) : Except GoStr (List Delta) :=
  match res.tombErr with
  | some e => Except.error e
  | none => Except.error ErrWatcherStopped

/-- Modelled from the spec: the error returned by the manager's Stop. -/
def StopResult (res : ShutdownResult) : Option GoStr := res.tombErr

/-- C6: after the manager is stopped, or after a backing error, every
pending request is replied false (and every pending request does get a
reply), and every pending or future Next returns an error: the canonical
watcher-stopped error on a plain stop, or the backing's error, which is
also returned by Stop. -/
theorem c6_shutdown (sm : StoreManager) (err : Option GoStr) :
    (∀ rp ∈ (shutdown sm err).replies, rp.ok = false) ∧
    (∀ p ∈ sm.waiting, ∀ r ∈ p.2,
      (⟨p.1, r, false, []⟩ : Reply) ∈ (shutdown sm err).replies) ∧
    (err = none →
      NextAfterShutdown (shutdown sm err) = Except.error ErrWatcherStopped) ∧
    (∀ e, err = some e →
      NextAfterShutdown (shutdown sm err) = Except.error e ∧
      StopResult (shutdown sm err) = some e) := by
  refine ⟨?_, ?_, ?_, ?_⟩
  · intro rp hrp
    unfold shutdown at hrp
    dsimp only at hrp
    rw [List.mem_flatten] at hrp
    obtain ⟨l, hl, hrpl⟩ := hrp
    rw [List.mem_map] at hl
    obtain ⟨p, hp, rfl⟩ := hl
    rw [List.mem_map] at hrpl
    obtain ⟨r, hr, rfl⟩ := hrpl
    rfl
  · intro p hp r hr
    unfold shutdown
    dsimp only
    rw [List.mem_flatten]
    refine ⟨p.2.map (fun r => (⟨p.1, r, false, []⟩ : Reply)), ?_, ?_⟩
    · exact List.mem_map_of_mem _ hp
    · exact List.mem_map_of_mem _ hr
  · intro he
    rw [he]
    rfl
  · intro e he
    rw [he]
    exact ⟨rfl, rfl⟩

/-- Witness for C6 at a concrete manager with one pending request and a
backing error. -/
theorem c6_shutdown_witness :
    ((⟨0, 5, false, []⟩ : Reply) ∈
      (shutdown ⟨Store.empty, [], [(0, [5])], []⟩ (some "some error")).replies) ∧
    NextAfterShutdown (shutdown ⟨Store.empty, [], [(0, [5])], []⟩
      (some "some error")) = Except.error "some error" := by
  constructor
  · exact (c6_shutdown ⟨Store.empty, [], [(0, [5])], []⟩
      (some "some error")).2.1 (0, [5]) (by decide) 5 (by decide)
  · exact ((c6_shutdown ⟨Store.empty, [], [(0, [5])], []⟩
      (some "some error")).2.2.2 "some error" rfl).1

/-! Machinery for C2: temporal integrity of removal deltas. The argument
is an invariant of the manager run: every entry a watcher currently sees
alive (creation at or before its revno, removal not yet announced to it)
is present in the view its client has built from the delivered deltas, so
every removal delta the manager ever emits lands on a view that contains
the entity. -/

/-- Well-formedness of a backing change event: the fetched info describes
the changed entity (the backing's Changed/fetch contract). -/
def wfOpB : Op → Bool
  | Op.change id (some i) => i.eid = id
  | _ => true

/-- Key coherence of a store: every entry's info describes the id it is
stored under. -/
def StoreKeys (s : Store) : Prop := ∀ p ∈ s.list, p.2.info.eid = p.1

/-- Relation between two stores: the second differs from the first only by
reference-count bookkeeping: same revision counter, and every entry of the
second is an entry of the first with identical creation revno, revno,
removed flag and info (only refCount may differ, and entries may have been
garbage-collected). -/
def OnlyRefcounts (a b : Store) : Prop :=
  b.latestRevno = a.latestRevno ∧
  ∀ id e2, b.lookup id = some e2 → ∃ e, a.lookup id = some e ∧
    e2.creationRevno = e.creationRevno ∧ e2.revno = e.revno ∧
    e2.removed = e.removed ∧ e2.info = e.info

/-- Helper: OnlyRefcounts is reflexive. -/
theorem onlyRef_refl (a : Store) : OnlyRefcounts a a :=
  ⟨rfl, fun _ e2 h => ⟨e2, h, rfl, rfl, rfl, rfl⟩⟩

/-- Helper: OnlyRefcounts is transitive. -/
theorem onlyRef_trans {a b c : Store} (h1 : OnlyRefcounts a b)
    (h2 : OnlyRefcounts b c) : OnlyRefcounts a c := by
  refine ⟨h2.1.trans h1.1, ?_⟩
  intro id e2 hl
  obtain ⟨e1, hl1, hc1, hr1, hm1, hi1⟩ := h2.2 id e2 hl
  obtain ⟨e0, hl0, hc0, hr0, hm0, hi0⟩ := h1.2 id e1 hl1
  exact ⟨e0, hl0, hc1.trans hc0, hr1.trans hr0, hm1.trans hm0, hi1.trans hi0⟩

/-- Helper: find? over an append whose first part has no match, for an
arbitrary element type. -/
theorem find_app_none {α : Type} (l1 l2 : List α) (P : α → Bool)
    (h : l1.find? P = none) : (l1 ++ l2).find? P = l2.find? P := by
  induction l1 with
  | nil => rfl
  | cons p t ih =>
      rw [List.find?_cons] at h
      by_cases hp : P p = true
      · rw [hp] at h; simp at h
      · rw [Bool.not_eq_true] at hp
        rw [hp] at h
        rw [List.cons_append, List.find?_cons, hp]
        exact ih h

/-- Helper: find? over an append whose first part already matches, for an
arbitrary element type. -/
theorem find_app_some {α : Type} (l1 l2 : List α) (P : α → Bool) (p : α)
    (h : l1.find? P = some p) : (l1 ++ l2).find? P = some p := by
  induction l1 with
  | nil => simp at h
  | cons q t ih =>
      rw [List.find?_cons] at h
      rw [List.cons_append, List.find?_cons]
      by_cases hq : P q = true
      · rw [hq] at h; rw [hq]; exact h
      · rw [Bool.not_eq_true] at hq
        rw [hq] at h; rw [hq]
        exact ih h

/-- Helper: filtering by a predicate implied by the search predicate does
not change what find? locates. -/
theorem find_filter_imp {α : Type} (l : List α) (P Q : α → Bool)
    (h : ∀ x, P x = true → Q x = true) :
    (l.filter Q).find? P = l.find? P := by
  induction l with
  | nil => rfl
  | cons x t ih =>
      by_cases hq : Q x = true
      · rw [List.filter_cons_of_pos hq, List.find?_cons, List.find?_cons]
        by_cases hp : P x = true
        · rw [hp]
        · rw [Bool.not_eq_true] at hp
          rw [hp]
          exact ih
      · have hp : P x = false := by
          cases hP : P x with
          | false => rfl
          | true => exact absurd (h x hP) hq
        rw [List.filter_cons_of_neg hq, List.find?_cons, hp]
        exact ih

/-- Helper: in a key-distinct list, membership of a keyed pair determines
what find? locates. -/
theorem find_of_mem_nodup (l : List (InfoId × entityEntry))
    (hnodup : (l.map Prod.fst).Nodup) (id : InfoId) (e : entityEntry)
    (h : (id, e) ∈ l) : l.find? (fun p => p.1 = id) = some (id, e) := by
  induction l with
  | nil => cases h
  | cons q t ih =>
      rw [List.map_cons, List.nodup_cons] at hnodup
      rw [List.find?_cons]
      by_cases hq : q.1 = id
      · rw [show (decide (q.1 = id)) = true by simpa using hq]
        rcases List.mem_cons.mp h with h1 | h2
        · rw [h1]
        · have hmem : id ∈ t.map Prod.fst := List.mem_map.mpr ⟨(id, e), h2, rfl⟩
          rw [← hq] at hmem
          exact absurd hmem hnodup.1
      · rw [show (decide (q.1 = id)) = false by simpa using hq]
        rcases List.mem_cons.mp h with h1 | h2
        · exact absurd (congrArg Prod.fst h1.symm) hq
        · exact ih hnodup.2 h2

/-- Helper: in a store with distinct keys, membership of a keyed pair
determines the lookup. -/
theorem lookup_of_mem {a : Store} (hnodup : (a.list.map Prod.fst).Nodup)
    {id : InfoId} {e : entityEntry} (h : (id, e) ∈ a.list) :
    a.lookup id = some e := by
  unfold Store.lookup
  rw [find_of_mem_nodup a.list hnodup id e h]
  rfl

/-- Helper: delete leaves lookups of other ids unchanged. -/
theorem lookup_delete_other (a : Store) (id id2 : InfoId) (hne : id2 ≠ id) :
    (a.delete id).lookup id2 = a.lookup id2 := by
  dsimp only [Store.delete, Store.lookup]
  rw [find_filter_imp a.list (fun p => p.1 = id2) (fun p => p.1 ≠ id)
    (by
      intro x hx
      simp only [decide_eq_true_iff] at hx
      simpa [hx] using hne)]

/-- Helper: a key-targeted map replacement leaves find? at other keys
unchanged. -/
theorem find_map_other_key (l : List (InfoId × entityEntry))
    (id id2 : InfoId) (e2 : entityEntry) (hne : id2 ≠ id) :
    (l.map (fun p => if p.1 = id then (id, e2) else p)).find?
      (fun p => p.1 = id2) = l.find? (fun p => p.1 = id2) := by
  induction l with
  | nil => rfl
  | cons p t ih =>
      by_cases hp : p.1 = id
      · have hp2 : ¬p.1 = id2 := by rw [hp]; exact fun hc => hne hc.symm
        simp only [List.map_cons, if_pos hp, List.find?_cons]
        rw [show (decide (id = id2)) = false by
          simp only [decide_eq_false_iff_not]
          exact fun hc => hne hc.symm]
        rw [show (decide (p.1 = id2)) = false by
          simp only [decide_eq_false_iff_not]
          exact hp2]
        exact ih
      · simp only [List.map_cons, if_neg hp, List.find?_cons]
        by_cases hp2 : p.1 = id2
        · simp [hp2]
        · rw [show (decide (p.1 = id2)) = false by
            simp only [decide_eq_false_iff_not]; exact hp2]
          exact ih

/-- Helper: setEntry leaves lookups of other ids unchanged. -/
theorem lookup_setEntry_other (a : Store) (id id2 : InfoId)
    (e2 : entityEntry) (hne : id2 ≠ id) :
    (a.setEntry id e2).lookup id2 = a.lookup id2 := by
  dsimp only [Store.setEntry, Store.lookup]
  rw [find_map_other_key a.list id id2 e2 hne]

/-- Helper: replacing an entry by a refCount variant is refcount-only
bookkeeping. -/
theorem onlyRef_setEntry (a : Store) (id : InfoId) (e e2 : entityEntry)
    (hl : a.lookup id = some e)
    (hc : e2.creationRevno = e.creationRevno) (hr : e2.revno = e.revno)
    (hm : e2.removed = e.removed) (hi : e2.info = e.info) :
    OnlyRefcounts a (a.setEntry id e2) := by
  refine ⟨rfl, ?_⟩
  intro id2 e3 hl3
  by_cases hid : id2 = id
  · subst hid
    rw [lookup_setEntry_self a id2 e e2 hl] at hl3
    cases hl3
    exact ⟨e, hl, hc, hr, hm, hi⟩
  · rw [lookup_setEntry_other a id id2 e2 hid] at hl3
    exact ⟨e3, hl3, rfl, rfl, rfl, rfl⟩

/-- Helper: delete is refcount-only bookkeeping. -/
theorem onlyRef_delete (a : Store) (id : InfoId) :
    OnlyRefcounts a (a.delete id) := by
  refine ⟨rfl, ?_⟩
  intro id2 e3 hl3
  by_cases hid : id2 = id
  · subst hid
    rw [lookup_delete_self a id2] at hl3
    cases hl3
  · rw [lookup_delete_other a id id2 hid] at hl3
    exact ⟨e3, hl3, rfl, rfl, rfl, rfl⟩

/-- Helper: decRef is refcount-only bookkeeping. -/
theorem onlyRef_decRef (a : Store) (id : InfoId) :
    OnlyRefcounts a (a.decRef id) := by
  unfold Store.decRef
  cases hl : a.lookup id with
  | none => exact onlyRef_refl a
  | some e =>
      dsimp only
      by_cases h1 : 0 < e.refCount - 1
      · rw [if_pos h1]
        exact onlyRef_setEntry a id e _ hl rfl rfl rfl rfl
      · rw [if_neg h1]
        by_cases h2 : e.refCount - 1 < 0
        · rw [if_pos h2]
          exact onlyRef_setEntry a id e _ hl rfl rfl rfl rfl
        · rw [if_neg h2]
          by_cases h3 : e.removed
          · rw [if_pos h3]
            exact onlyRef_delete a id
          · rw [if_neg h3]
            exact onlyRef_setEntry a id e _ hl rfl rfl rfl rfl

/-- Helper: one step of the refcount protocol is refcount-only
bookkeeping. -/
theorem onlyRef_seenOne (wr : Int) (a : Store) (d : Delta) :
    OnlyRefcounts a (seenOne wr a d) := by
  unfold seenOne
  cases hl : a.lookup d.entity.eid with
  | none => exact onlyRef_refl a
  | some e =>
      dsimp only
      by_cases h1 : d.removed = true
      · rw [if_pos h1]
        exact onlyRef_decRef a d.entity.eid
      · rw [if_neg h1]
        by_cases h2 : wr < e.creationRevno
        · rw [if_pos h2]
          exact onlyRef_setEntry a d.entity.eid e _ hl rfl rfl rfl rfl
        · rw [if_neg h2]
          exact onlyRef_refl a

/-- Helper: a fold of refcount-only steps is refcount-only bookkeeping. -/
theorem onlyRef_foldl {α : Type} (f : Store → α → Store)
    (hf : ∀ s x, OnlyRefcounts s (f s x)) :
    ∀ (l : List α) (s : Store), OnlyRefcounts s (l.foldl f s) := by
  intro l
  induction l with
  | nil => exact fun s => onlyRef_refl s
  | cons x t ih =>
      intro s
      exact onlyRef_trans (hf s x) (ih (f s x))

/-- Helper: the refcount protocol over a batch is refcount-only
bookkeeping. -/
theorem onlyRef_seen (a : Store) (wr : Int) (ds : List Delta) :
    OnlyRefcounts a (a.seen wr ds) :=
  onlyRef_foldl (seenOne wr) (onlyRef_seenOne wr) ds a

/-- Helper: the leave walk is refcount-only bookkeeping. -/
theorem onlyRef_leave (a : Store) (wr : Int) :
    OnlyRefcounts a (leave a wr) := by
  unfold leave
  by_cases h : 0 < wr
  · rw [if_pos h]
    exact onlyRef_foldl Store.decRef (fun s x => onlyRef_decRef s x) _ a
  · rw [if_neg h]
    exact onlyRef_refl a

/-- Helper: one step of the refcount protocol preserves the store
invariant. -/
theorem storeInv_seenOne (wr : Int) (a : Store) (d : Delta)
    (h : StoreInv a) : StoreInv (seenOne wr a d) := by
  unfold seenOne
  cases hl : a.lookup d.entity.eid with
  | none => exact h
  | some e =>
      dsimp only
      by_cases h1 : d.removed = true
      · rw [if_pos h1]
        exact storeInv_decRef a d.entity.eid h
      · rw [if_neg h1]
        by_cases h2 : wr < e.creationRevno
        · rw [if_pos h2]
          exact storeInv_setEntry a d.entity.eid e _ hl rfl rfl h
        · rw [if_neg h2]
          exact h

/-- Helper: a fold of invariant-preserving steps preserves the store
invariant. -/
theorem storeInv_foldl {α : Type} (f : Store → α → Store)
    (hf : ∀ s x, StoreInv s → StoreInv (f s x)) :
    ∀ (l : List α) (s : Store), StoreInv s → StoreInv (l.foldl f s) := by
  intro l
  induction l with
  | nil => exact fun s h => h
  | cons x t ih =>
      intro s h
      exact ih (f s x) (hf s x h)

/-- Helper: the refcount protocol over a batch preserves the store
invariant. -/
theorem storeInv_seen (a : Store) (wr : Int) (ds : List Delta)
    (h : StoreInv a) : StoreInv (a.seen wr ds) :=
  storeInv_foldl (seenOne wr) (storeInv_seenOne wr) ds a h

/-- Helper: the leave walk preserves the store invariant. -/
theorem storeInv_leave (a : Store) (wr : Int) (h : StoreInv a) :
    StoreInv (leave a wr) := by
  unfold leave
  by_cases hc : 0 < wr
  · rw [if_pos hc]
    exact storeInv_foldl Store.decRef (fun s x => storeInv_decRef s x) _ a h
  · rw [if_neg hc]
    exact h

/-- Helper: setEntry with an entry whose info is unchanged preserves key
coherence. -/
theorem storeKeys_setEntry (a : Store) (id : InfoId) (e e2 : entityEntry)
    (hl : a.lookup id = some e) (hi : e2.info = e.info)
    (h : StoreKeys a) : StoreKeys (a.setEntry id e2) := by
  intro p hp
  dsimp only [Store.setEntry] at hp
  obtain ⟨q, hq, hqp⟩ := List.mem_map.mp hp
  by_cases hqid : q.1 = id
  · rw [if_pos hqid] at hqp
    rw [← hqp]
    dsimp only
    rw [hi]
    have := h (id, e) (lookup_mem hl)
    exact this
  · rw [if_neg hqid] at hqp
    rw [← hqp]
    exact h q hq

/-- Helper: delete preserves key coherence. -/
theorem storeKeys_delete (a : Store) (id : InfoId) (h : StoreKeys a) :
    StoreKeys (a.delete id) := by
  intro p hp
  exact h p (List.mem_of_mem_filter hp)

/-- Helper: decRef preserves key coherence. -/
theorem storeKeys_decRef (a : Store) (id : InfoId) (h : StoreKeys a) :
    StoreKeys (a.decRef id) := by
  unfold Store.decRef
  cases hl : a.lookup id with
  | none => exact h
  | some e =>
      dsimp only
      by_cases h1 : 0 < e.refCount - 1
      · rw [if_pos h1]
        exact storeKeys_setEntry a id e _ hl rfl h
      · rw [if_neg h1]
        by_cases h2 : e.refCount - 1 < 0
        · rw [if_pos h2]
          exact storeKeys_setEntry a id e _ hl rfl h
        · rw [if_neg h2]
          by_cases h3 : e.removed
          · rw [if_pos h3]
            exact storeKeys_delete a id h
          · rw [if_neg h3]
            exact storeKeys_setEntry a id e _ hl rfl h

/-- Helper: one step of the refcount protocol preserves key coherence. -/
theorem storeKeys_seenOne (wr : Int) (a : Store) (d : Delta)
    (h : StoreKeys a) : StoreKeys (seenOne wr a d) := by
  unfold seenOne
  cases hl : a.lookup d.entity.eid with
  | none => exact h
  | some e =>
      dsimp only
      by_cases h1 : d.removed = true
      · rw [if_pos h1]
        exact storeKeys_decRef a d.entity.eid h
      · rw [if_neg h1]
        by_cases h2 : wr < e.creationRevno
        · rw [if_pos h2]
          exact storeKeys_setEntry a d.entity.eid e _ hl rfl h
        · rw [if_neg h2]
          exact h

/-- Helper: a fold of coherence-preserving steps preserves key
coherence. -/
theorem storeKeys_foldl {α : Type} (f : Store → α → Store)
    (hf : ∀ s x, StoreKeys s → StoreKeys (f s x)) :
    ∀ (l : List α) (s : Store), StoreKeys s → StoreKeys (l.foldl f s) := by
  intro l
  induction l with
  | nil => exact fun s h => h
  | cons x t ih =>
      intro s h
      exact ih (f s x) (hf s x h)

/-- Helper: the refcount protocol over a batch preserves key coherence. -/
theorem storeKeys_seen (a : Store) (wr : Int) (ds : List Delta)
    (h : StoreKeys a) : StoreKeys (a.seen wr ds) :=
  storeKeys_foldl (seenOne wr) (storeKeys_seenOne wr) ds a h

/-- Helper: the leave walk preserves key coherence. -/
theorem storeKeys_leave (a : Store) (wr : Int) (h : StoreKeys a) :
    StoreKeys (leave a wr) := by
  unfold leave
  by_cases hc : 0 < wr
  · rw [if_pos hc]
    exact storeKeys_foldl Store.decRef (fun s x => storeKeys_decRef s x) _ a h
  · rw [if_neg hc]
    exact h

/-- Helper: a well-formed Update preserves key coherence. -/
theorem storeKeys_update (a : Store) (id : InfoId) (info : Option EntityInfo)
    (hwf : ∀ i, info = some i → i.eid = id) (h : StoreKeys a) :
    StoreKeys (a.Update id info) := by
  unfold Store.Update
  cases hl : a.lookup id with
  | none =>
      cases info with
      | none => exact h
      | some i =>
          dsimp only [Store.add]
          intro p hp
          rcases List.mem_append.mp hp with h1 | h2
          · exact h p h1
          · rw [List.mem_singleton] at h2
            rw [h2]
            exact hwf i rfl
  | some e =>
      cases info with
      | none =>
          dsimp only
          by_cases h1 : e.removed
          · rw [if_pos h1]
            exact h
          · rw [if_neg h1]
            by_cases h2 : e.refCount = 0
            · rw [if_pos h2]
              intro p hp
              exact h p (List.mem_of_mem_filter hp)
            · rw [if_neg h2]
              intro p hp
              rcases List.mem_append.mp hp with h3 | h4
              · exact h p (List.mem_of_mem_filter h3)
              · rw [List.mem_singleton] at h4
                rw [h4]
                exact h (id, e) (lookup_mem hl)
      | some i =>
          dsimp only
          by_cases h1 : e.removed
          · rw [if_pos h1]
            exact h
          · rw [if_neg h1]
            intro p hp
            rcases List.mem_append.mp hp with h3 | h4
            · exact h p (List.mem_of_mem_filter h3)
            · rw [List.mem_singleton] at h4
              rw [h4]
              exact hwf i rfl

/-- Helper: Update never decreases the revision counter. -/
theorem latest_update_mono (a : Store) (id : InfoId)
    (info : Option EntityInfo) :
    a.latestRevno ≤ (a.Update id info).latestRevno := by
  unfold Store.Update
  cases hl : a.lookup id with
  | none =>
      cases info with
      | none => exact le_refl _
      | some i =>
          dsimp only [Store.add]
          omega
  | some e =>
      cases info with
      | none =>
          dsimp only
          by_cases h1 : e.removed
          · rw [if_pos h1]
          · rw [if_neg h1]
            by_cases h2 : e.refCount = 0
            · rw [if_pos h2]
              dsimp only
              omega
            · rw [if_neg h2]
              dsimp only
              omega
      | some i =>
          dsimp only
          by_cases h1 : e.removed
          · rw [if_pos h1]
          · rw [if_neg h1]
            dsimp only
            omega

/-- Helper: seenAliveP is determined by creation revno, revno and the
removed flag, so it transfers along refcount-only bookkeeping. -/
theorem seenAliveP_congr {wr : Int} {e e2 : entityEntry}
    (hc : e2.creationRevno = e.creationRevno) (hr : e2.revno = e.revno)
    (hm : e2.removed = e.removed) (h : seenAliveP wr e2) :
    seenAliveP wr e := by
  unfold seenAliveP at h ⊢
  rw [hc, hr, hm] at h
  exact h


/-- Helper: find? over the move-to-front shape of Update (all other
entries kept, the updated entry re-appended at the newest end). -/
theorem find_replace (l : List (InfoId × entityEntry)) (id : InfoId)
    (e2 : entityEntry) (id2 : InfoId) :
    (l.filter (fun p => p.1 ≠ id) ++ [(id, e2)]).find? (fun p => p.1 = id2) =
      if id2 = id then some (id, e2)
      else l.find? (fun p => p.1 = id2) := by
  by_cases hid : id2 = id
  · subst hid
    rw [if_pos rfl]
    rw [find_app_none _ _ _ (by
      rw [List.find?_eq_none]
      intro p hp
      have := List.of_mem_filter hp
      simpa using this)]
    rw [List.find?_singleton]
    rw [show (decide ((id2, e2).1 = id2)) = true by simp]
    rfl
  · rw [if_neg hid]
    have hfilter := find_filter_imp l (fun p => p.1 = id2)
      (fun p => p.1 ≠ id)
      (by
        intro x hx
        simp only [decide_eq_true_iff] at hx
        simpa [hx] using hid)
    cases hf : l.find? (fun p => p.1 = id2) with
    | some p =>
        rw [find_app_some _ _ _ p (hfilter.trans hf)]
    | none =>
        rw [find_app_none _ _ _ (hfilter.trans hf)]
        rw [List.find?_singleton]
        rw [show (decide ((id, e2).1 = id2)) = false by
          simp only [decide_eq_false_iff_not]
          exact fun hc => hid hc.symm]
        rfl

/-- Helper: every entry of the store after an Update that some watcher at
an already-reached revision wr sees alive corresponds to an entry of the
store before the Update that the watcher already saw alive. -/
theorem update_seen_back (a : Store) (id : InfoId)
    (info : Option EntityInfo) (wr : Int) (hwr : wr ≤ a.latestRevno)
    (id2 : InfoId) (e2 : entityEntry)
    (hl2 : (a.Update id info).lookup id2 = some e2)
    (hs : seenAliveP wr e2) :
    ∃ e, a.lookup id2 = some e ∧ seenAliveP wr e := by
  unfold Store.Update at hl2
  cases hl : a.lookup id with
  | none =>
      rw [hl] at hl2
      cases info with
      | none => exact ⟨e2, hl2, hs⟩
      | some i =>
          dsimp only [Store.add, Store.lookup] at hl2
          cases hf : a.list.find? (fun p => p.1 = id2) with
          | some p =>
              rw [find_app_some _ _ _ p hf] at hl2
              cases hl2
              exact ⟨p.2, by unfold Store.lookup; rw [hf]; rfl, hs⟩
          | none =>
              rw [find_app_none _ _ _ hf] at hl2
              rw [List.find?_singleton] at hl2
              by_cases hid : id = id2
              · rw [show (decide ((id,
                    ({ creationRevno := a.latestRevno + 1,
                       revno := a.latestRevno + 1, refCount := 0,
                       removed := false, info := i } : entityEntry)).1 = id2))
                    = true by simpa using hid] at hl2
                cases hl2
                obtain ⟨hcr, _⟩ := hs
                dsimp only at hcr
                omega
              · rw [show (decide ((id,
                    ({ creationRevno := a.latestRevno + 1,
                       revno := a.latestRevno + 1, refCount := 0,
                       removed := false, info := i } : entityEntry)).1 = id2))
                    = false by simpa using hid] at hl2
                cases hl2
  | some e =>
      rw [hl] at hl2
      cases info with
      | none =>
          dsimp only at hl2
          by_cases h1 : e.removed
          · rw [if_pos h1] at hl2
            exact ⟨e2, hl2, hs⟩
          · rw [if_neg h1] at hl2
            by_cases h2 : e.refCount = 0
            · rw [if_pos h2] at hl2
              by_cases hid : id2 = id
              · subst hid
                dsimp only [Store.lookup] at hl2
                rw [show ((a.list.filter (fun p => p.1 ≠ id2)).find?
                    (fun p => p.1 = id2)) = none by
                  rw [List.find?_eq_none]
                  intro p hp
                  have := List.of_mem_filter hp
                  simpa using this] at hl2
                cases hl2
              · dsimp only [Store.lookup] at hl2
                rw [find_filter_imp a.list (fun p => p.1 = id2)
                  (fun p => p.1 ≠ id)
                  (by
                    intro x hx
                    simp only [decide_eq_true_iff] at hx
                    simpa [hx] using hid)] at hl2
                exact ⟨e2, hl2, hs⟩
            · rw [if_neg h2] at hl2
              dsimp only [Store.lookup] at hl2
              rw [find_replace a.list id _ id2] at hl2
              by_cases hid : id2 = id
              · rw [if_pos hid] at hl2
                cases hl2
                obtain ⟨hcr, _⟩ := hs
                dsimp only at hcr
                subst hid
                refine ⟨e, hl, hcr, Or.inl ?_⟩
                simp only [Bool.not_eq_true] at h1
                exact h1
              · rw [if_neg hid] at hl2
                cases hfind : a.list.find? (fun p => p.1 = id2) with
                | none => rw [hfind] at hl2; cases hl2
                | some p =>
                    rw [hfind] at hl2
                    cases hl2
                    exact ⟨p.2, by unfold Store.lookup; rw [hfind]; rfl, hs⟩
      | some i =>
          dsimp only at hl2
          by_cases h1 : e.removed
          · rw [if_pos h1] at hl2
            exact ⟨e2, hl2, hs⟩
          · rw [if_neg h1] at hl2
            dsimp only [Store.lookup] at hl2
            rw [find_replace a.list id _ id2] at hl2
            by_cases hid : id2 = id
            · rw [if_pos hid] at hl2
              cases hl2
              obtain ⟨hcr, _⟩ := hs
              dsimp only at hcr
              subst hid
              refine ⟨e, hl, hcr, Or.inl ?_⟩
              simp only [Bool.not_eq_true] at h1
              exact h1
            · rw [if_neg hid] at hl2
              cases hfind : a.list.find? (fun p => p.1 = id2) with
              | none => rw [hfind] at hl2; cases hl2
              | some p =>
                  rw [hfind] at hl2
                  cases hl2
                  exact ⟨p.2, by unfold Store.lookup; rw [hfind]; rfl, hs⟩

/-- Helper: deltas delivered over an appended reply stream. -/
theorem deliveredTo_append (rs1 rs2 : List Reply) (w : Nat) :
    deliveredTo (rs1 ++ rs2) w = deliveredTo rs1 w ++ deliveredTo rs2 w := by
  unfold deliveredTo
  rw [List.filter_append, List.map_append, List.flatten_append]

/-- Helper: a single successful reply to the watcher delivers exactly its
changes. -/
theorem deliveredTo_single_self (w r : Nat) (ds : List Delta) :
    deliveredTo [⟨w, r, true, ds⟩] w = ds := by
  unfold deliveredTo
  simp

/-- Helper: a reply to another watcher delivers nothing here. -/
theorem deliveredTo_single_other (w w2 r : Nat) (ok : Bool)
    (ds : List Delta) (hne : w2 ≠ w) :
    deliveredTo [⟨w, r, ok, ds⟩] w2 = [] := by
  unfold deliveredTo
  rw [show ([(⟨w, r, ok, ds⟩ : Reply)].filter
      (fun rp => rp.wid = w2 && rp.ok)) = [] by
    rw [List.filter_eq_nil_iff]
    intro rp hrp
    rw [List.mem_singleton] at hrp
    subst hrp
    simp only [Bool.and_eq_true, decide_eq_true_iff]
    exact fun hc => hne hc.1.symm]
  rfl

/-- Helper: failure replies deliver nothing. -/
theorem deliveredTo_false (w w2 : Nat) (lst : List Nat) :
    deliveredTo (lst.map (fun r => (⟨w, r, false, []⟩ : Reply))) w2 = [] := by
  unfold deliveredTo
  rw [show ((lst.map (fun r => (⟨w, r, false, []⟩ : Reply))).filter
      (fun rp => rp.wid = w2 && rp.ok)) = [] by
    rw [List.filter_eq_nil_iff]
    intro rp hrp
    obtain ⟨r, _, hr⟩ := List.mem_map.mp hrp
    subst hr
    simp]
  rfl

/-- Helper: a view fold over an appended delta stream. -/
theorem viewOf_append (ds1 ds2 : List Delta) :
    viewOf (ds1 ++ ds2) = ds2.foldl applyDelta (viewOf ds1) := by
  unfold viewOf
  rw [List.foldl_append]

/-- Helper: applying a batch of deltas with pairwise-distinct entity ids to
a view that contains every entity the batch removes always succeeds; ids
untouched by the batch keep their membership, and every entity the batch
reports alive is in the final view. -/
theorem viewFold_ok :
    ∀ (ds : List Delta) (v : List InfoId),
      (ds.map (fun d => d.entity.eid)).Nodup →
      (∀ d ∈ ds, d.removed = true → d.entity.eid ∈ v) →
      ∃ v2, ds.foldl applyDelta (some v) = some v2 ∧
        (∀ id, id ∉ ds.map (fun d => d.entity.eid) → (id ∈ v2 ↔ id ∈ v)) ∧
        (∀ d ∈ ds, d.removed = false → d.entity.eid ∈ v2) := by
  intro ds
  induction ds with
  | nil =>
      intro v _ _
      exact ⟨v, rfl, fun id _ => Iff.rfl, fun d hd => absurd hd
        (List.not_mem_nil d)⟩
  | cons d t ih =>
      intro v hnd hrem
      rw [List.map_cons, List.nodup_cons] at hnd
      cases hdr : d.removed with
      | true =>
          have hv : d.entity.eid ∈ v :=
            hrem d (List.mem_cons_self d t) hdr
          have hstep : applyDelta (some v) d = some (v.erase d.entity.eid) := by
            simp only [applyDelta]
            rw [hdr]
            rw [if_pos (by rfl), if_pos hv]
          obtain ⟨v2, hfold, huntouched, halive⟩ := ih (v.erase d.entity.eid)
            hnd.2
            (by
              intro d2 hd2 hd2r
              have hne : d2.entity.eid ≠ d.entity.eid := by
                intro hc
                exact hnd.1 (hc ▸ List.mem_map.mpr ⟨d2, hd2, rfl⟩)
              rw [List.mem_erase_of_ne hne]
              exact hrem d2 (List.mem_cons_of_mem d hd2) hd2r)
          refine ⟨v2, ?_, ?_, ?_⟩
          · rw [List.foldl_cons, hstep]
            exact hfold
          · intro id hid
            rw [List.map_cons, List.mem_cons] at hid
            push_neg at hid
            rw [huntouched id hid.2]
            exact List.mem_erase_of_ne hid.1
          · intro d2 hd2 hd2r
            rcases List.mem_cons.mp hd2 with h1 | h2
            · rw [h1] at hd2r
              rw [hdr] at hd2r
              cases hd2r
            · exact halive d2 h2 hd2r
      | false =>
          have hstep : ∃ w2, applyDelta (some v) d = some w2 ∧
              d.entity.eid ∈ w2 ∧
              (∀ id, id ≠ d.entity.eid → (id ∈ w2 ↔ id ∈ v)) ∧
              (∀ id, id ∈ v → id ∈ w2) := by
            simp only [applyDelta]
            rw [hdr]
            by_cases hv : d.entity.eid ∈ v
            · rw [if_neg Bool.false_ne_true, if_pos hv]
              exact ⟨v, rfl, hv, fun id _ => Iff.rfl, fun id h => h⟩
            · rw [if_neg Bool.false_ne_true, if_neg hv]
              refine ⟨d.entity.eid :: v, rfl, List.mem_cons_self _ _, ?_, ?_⟩
              · intro id hne
                rw [List.mem_cons]
                exact ⟨fun h => h.resolve_left hne, Or.inr⟩
              · intro id h
                exact List.mem_cons_of_mem _ h
          obtain ⟨w2, hstepEq, hmemw, hotherw, hmono⟩ := hstep
          obtain ⟨v2, hfold, huntouched, halive⟩ := ih w2 hnd.2
            (by
              intro d2 hd2 hd2r
              have hne : d2.entity.eid ≠ d.entity.eid := by
                intro hc
                exact hnd.1 (hc ▸ List.mem_map.mpr ⟨d2, hd2, rfl⟩)
              exact hmono _ (hrem d2 (List.mem_cons_of_mem d hd2) hd2r))
          refine ⟨v2, ?_, ?_, ?_⟩
          · rw [List.foldl_cons, hstepEq]
            exact hfold
          · intro id hid
            rw [List.map_cons, List.mem_cons] at hid
            push_neg at hid
            rw [huntouched id hid.2]
            exact hotherw id hid.1
          · intro d2 hd2 hd2f
            rcases List.mem_cons.mp hd2 with h1 | h2
            · rw [h1]
              rw [huntouched _ hnd.1]
              exact hmemw
            · exact halive d2 h2 hd2f

/-- Helper: for a revno-sorted store list, ChangesSince is a filter of the
whole list followed by the delta translation. -/
theorem changesSince_filter (a : Store) (r : Int)
    (hsort : a.list.Pairwise (fun p q => p.2.revno < q.2.revno)) :
    a.ChangesSince r =
      (a.list.filter (fun p => decide (r < p.2.revno) &&
        !(p.2.removed && decide (r < p.2.creationRevno)))).map
        (fun p => Store.toDelta p.2) := by
  unfold Store.ChangesSince
  rw [sinceSuffix_eq_filter a.list r hsort]
  rw [List.filter_filter]
  congr 1
  apply List.filter_congr
  intro p _
  exact Bool.and_comm _ _

/-- Helper: the entity ids of a ChangesSince batch are the store keys of
the filtered entries, hence pairwise distinct. -/
theorem changesSince_ids (a : Store) (r : Int)
    (hsort : a.list.Pairwise (fun p q => p.2.revno < q.2.revno))
    (hkeys : StoreKeys a) (hnodup : (a.list.map Prod.fst).Nodup) :
    ((a.ChangesSince r).map (fun d => d.entity.eid)).Nodup := by
  rw [changesSince_filter a r hsort]
  rw [List.map_map]
  have heq : (a.list.filter (fun p => decide (r < p.2.revno) &&
      !(p.2.removed && decide (r < p.2.creationRevno)))).map
      ((fun d => d.entity.eid) ∘ (fun p => Store.toDelta p.2)) =
      (a.list.filter (fun p => decide (r < p.2.revno) &&
        !(p.2.removed && decide (r < p.2.creationRevno)))).map Prod.fst := by
    apply List.map_congr_left
    intro p hp
    exact hkeys p (List.mem_of_mem_filter hp)
  rw [heq]
  exact List.Nodup.sublist (List.Sublist.map Prod.fst
    (List.filter_sublist a.list)) hnodup

/-- Helper: every removal delta of a ChangesSince batch comes from a store
entry the caller saw alive. -/
theorem changesSince_removal_back (a : Store) (r : Int)
    (hsort : a.list.Pairwise (fun p q => p.2.revno < q.2.revno))
    (hkeys : StoreKeys a) (hnodup : (a.list.map Prod.fst).Nodup)
    (d : Delta) (hd : d ∈ a.ChangesSince r) (hdr : d.removed = true) :
    ∃ e, a.lookup d.entity.eid = some e ∧ seenAliveP r e := by
  rw [changesSince_filter a r hsort] at hd
  obtain ⟨p, hp, hpd⟩ := List.mem_map.mp hd
  have hmem := List.mem_of_mem_filter hp
  have hF := List.of_mem_filter hp
  have hdel : d.entity.eid = p.1 := by
    rw [← hpd]
    exact hkeys p hmem
  have hrm : p.2.removed = true := by
    rw [← hpd] at hdr
    exact hdr
  rw [hrm] at hF
  simp only [Bool.true_and, Bool.and_eq_true, decide_eq_true_iff] at hF
  have hcr : p.2.creationRevno ≤ r := by
    have h2 := hF.2
    by_cases hlt : r < p.2.creationRevno
    · rw [show (decide (r < p.2.creationRevno)) = true by simpa using hlt] at h2
      cases h2
    · omega
  rw [hdel]
  refine ⟨p.2, ?_, hcr, Or.inr hF.1⟩
  have : (p.1, p.2) ∈ a.list := by
    cases p with
    | mk x y => exact hmem
  exact lookup_of_mem hnodup this

/-- Helper: every non-removed store entry with revno above r contributes an
alive delta to the ChangesSince batch. -/
theorem changesSince_alive_mem (a : Store) (r : Int)
    (hsort : a.list.Pairwise (fun p q => p.2.revno < q.2.revno))
    (id : InfoId) (e : entityEntry) (hmem : (id, e) ∈ a.list)
    (hrm : e.removed = false) (hrv : r < e.revno) :
    Store.toDelta e ∈ a.ChangesSince r := by
  rw [changesSince_filter a r hsort]
  refine List.mem_map.mpr ⟨(id, e), ?_, rfl⟩
  refine List.mem_filter.mpr ⟨hmem, ?_⟩
  simp [hrm, hrv]

/-- Helper: the id of a delta in a ChangesSince batch belongs to an entry
of the store with that very info and removed flag. -/
theorem changesSince_mem_back (a : Store) (r : Int)
    (hsort : a.list.Pairwise (fun p q => p.2.revno < q.2.revno))
    (hkeys : StoreKeys a) (hnodup : (a.list.map Prod.fst).Nodup)
    (d : Delta) (hd : d ∈ a.ChangesSince r) :
    ∃ e, a.lookup d.entity.eid = some e ∧ e.removed = d.removed ∧
      e.info = d.entity := by
  rw [changesSince_filter a r hsort] at hd
  obtain ⟨p, hp, hpd⟩ := List.mem_map.mp hd
  have hmem := List.mem_of_mem_filter hp
  have hdel : d.entity.eid = p.1 := by
    rw [← hpd]
    exact hkeys p hmem
  rw [hdel]
  have hpl : (p.1, p.2) ∈ a.list := by
    cases p with
    | mk x y => exact hmem
  refine ⟨p.2, lookup_of_mem hnodup hpl, ?_, ?_⟩
  · rw [← hpd]; rfl
  · rw [← hpd]; rfl

/-- The per-watcher safety invariant of the manager run: the watcher's
client view (the fold of the deltas delivered to it) is well defined, and
contains every entity the watcher currently sees alive according to the
store and its last-told revision. -/
def SeesTo (rs : List Reply) (sm : StoreManager) (w : Nat) : Prop :=
  ∃ v, viewOf (deliveredTo rs w) = some v ∧
    ∀ id e, sm.all.lookup id = some e → seenAliveP (wrevno sm w) e → id ∈ v

/-- The manager invariant tying a manager state to the replies emitted so
far: the store is well formed and key coherent, no watcher is ahead of the
revision counter, and every watcher satisfies the view invariant. -/
def MgrInv (sm : StoreManager) (rs : List Reply) : Prop :=
  StoreInv sm.all ∧ StoreKeys sm.all ∧
  (∀ w, wrevno sm w ≤ sm.all.latestRevno) ∧
  (∀ w, SeesTo rs sm w)

/-- Helper: the invariant holds initially. -/
theorem mgrInv_init : MgrInv initSM [] := by
  refine ⟨storeInv_empty, ?_, ?_, ?_⟩
  · intro p hp
    simp [initSM, Store.empty] at hp
  · intro w
    show (0 : Int) ≤ 0
    exact le_refl 0
  · intro w
    refine ⟨[], rfl, ?_⟩
    intro id e hl _
    simp [initSM, Store.empty, Store.lookup] at hl

/-- Helper: a backing change with coherent info preserves the manager
invariant (no replies are emitted). -/
theorem mgrInv_change (sm : StoreManager) (rs : List Reply) (id : InfoId)
    (info : Option EntityInfo) (hwf : ∀ i, info = some i → i.eid = id)
    (h : MgrInv sm rs) :
    MgrInv { sm with all := sm.all.Update id info } rs := by
  obtain ⟨hinv, hkeys, hwr, hsees⟩ := h
  refine ⟨storeInv_update _ _ _ hinv, storeKeys_update _ _ _ hwf hkeys,
    ?_, ?_⟩
  · intro w
    exact le_trans (hwr w) (latest_update_mono sm.all id info)
  · intro w
    obtain ⟨v, hview, hmem⟩ := hsees w
    refine ⟨v, hview, ?_⟩
    intro id2 e2 hl2 hs2
    obtain ⟨e, hl, hs⟩ := update_seen_back sm.all id info (wrevno sm w)
      (hwr w) id2 e2 hl2 hs2
    exact hmem id2 e hl hs

/-- Helper: handling a Next request preserves the manager invariant. -/
theorem mgrInv_next (sm : StoreManager) (rs : List Reply) (w r : Nat)
    (h : MgrInv sm rs) :
    MgrInv (handleNext sm w r).1 (rs ++ (handleNext sm w r).2) := by
  unfold handleNext
  by_cases hst : w ∈ sm.stopped
  · rw [if_pos hst]
    dsimp only
    rw [List.append_nil]
    exact h
  · rw [if_neg hst]
    dsimp only
    rw [List.append_nil]
    obtain ⟨hinv, hkeys, hwr, hsees⟩ := h
    exact ⟨hinv, hkeys, hwr, hsees⟩

/-- Helper: stopping a watcher preserves the manager invariant: the leave
walk is refcount-only bookkeeping and the failure replies deliver no
deltas. -/
theorem mgrInv_stop (sm : StoreManager) (rs : List Reply) (w : Nat)
    (h : MgrInv sm rs) :
    MgrInv (handleStop sm w).1 (rs ++ (handleStop sm w).2) := by
  unfold handleStop
  by_cases hst : w ∈ sm.stopped
  · rw [if_pos hst]
    dsimp only
    rw [List.append_nil]
    exact h
  · rw [if_neg hst]
    dsimp only
    obtain ⟨hinv, hkeys, hwr, hsees⟩ := h
    have hor := onlyRef_leave sm.all (wrevno sm w)
    refine ⟨storeInv_leave _ _ hinv, storeKeys_leave _ _ hkeys, ?_, ?_⟩
    · intro w2
      show wrevno sm w2 ≤ (leave sm.all (wrevno sm w)).latestRevno
      rw [hor.1]
      exact hwr w2
    · intro w2
      obtain ⟨v, hview, hmem⟩ := hsees w2
      refine ⟨v, ?_, ?_⟩
      · rw [deliveredTo_append, deliveredTo_false w w2 (waitingOf sm w)]
        rw [List.append_nil]
        exact hview
      · intro id e2 hl2 hs2
        obtain ⟨e, hl, hc, hr2, hm, _⟩ := hor.2 id e2 hl2
        exact hmem id e hl (seenAliveP_congr hc hr2 hm hs2)

/-- Helper: serving one watcher (delivering ChangesSince of its revno,
advancing it to latestRevno and running the refcount protocol) preserves
the manager invariant, whatever pending list is recorded. -/
theorem mgrInv_serve (sm : StoreManager) (rs : List Reply) (w r : Nat)
    (pend : List (Nat × List Nat)) (h : MgrInv sm rs) :
    MgrInv ⟨sm.all.seen (wrevno sm w) (sm.all.ChangesSince (wrevno sm w)),
        setAssoc sm.watchers w sm.all.latestRevno, pend, sm.stopped⟩
      (rs ++ [⟨w, r, true, sm.all.ChangesSince (wrevno sm w)⟩]) := by
  obtain ⟨hinv, hkeys, hwrb, hsees⟩ := h
  obtain ⟨hsort, hbounds, hnodup, hperm, hlat⟩ := hinv
  have hor := onlyRef_seen sm.all (wrevno sm w)
    (sm.all.ChangesSince (wrevno sm w))
  refine ⟨storeInv_seen _ _ _ ⟨hsort, hbounds, hnodup, hperm, hlat⟩,
    storeKeys_seen _ _ _ hkeys, ?_, ?_⟩
  · intro w2
    by_cases hw2 : w2 = w
    · subst hw2
      show (lookupAssoc (setAssoc sm.watchers w2 sm.all.latestRevno) w2).getD 0
        ≤ (sm.all.seen (wrevno sm w2)
            (sm.all.ChangesSince (wrevno sm w2))).latestRevno
      rw [lookupAssoc_setAssoc_self, hor.1]
      exact le_refl _
    · show (lookupAssoc (setAssoc sm.watchers w sm.all.latestRevno) w2).getD 0
        ≤ (sm.all.seen (wrevno sm w)
            (sm.all.ChangesSince (wrevno sm w))).latestRevno
      rw [lookupAssoc_setAssoc_other sm.watchers w w2 _ hw2, hor.1]
      exact hwrb w2
  · intro w2
    by_cases hw2 : w2 = w
    · subst hw2
      obtain ⟨v, hview, hmem⟩ := hsees w2
      have hids := changesSince_ids sm.all (wrevno sm w2) hsort hkeys hnodup
      have hremv : ∀ d ∈ sm.all.ChangesSince (wrevno sm w2),
          d.removed = true → d.entity.eid ∈ v := by
        intro d hd hdr
        obtain ⟨e, hl, hs⟩ := changesSince_removal_back sm.all (wrevno sm w2)
          hsort hkeys hnodup d hd hdr
        exact hmem _ _ hl hs
      obtain ⟨v2, hfold, huntouched, halive⟩ :=
        viewFold_ok (sm.all.ChangesSince (wrevno sm w2)) v hids hremv
      refine ⟨v2, ?_, ?_⟩
      · rw [deliveredTo_append, deliveredTo_single_self, viewOf_append, hview]
        exact hfold
      · intro id e2 hl2 hs2
        have hwrev : wrevno ⟨sm.all.seen (wrevno sm w2)
            (sm.all.ChangesSince (wrevno sm w2)),
            setAssoc sm.watchers w2 sm.all.latestRevno, pend, sm.stopped⟩ w2
            = sm.all.latestRevno := by
          show (lookupAssoc (setAssoc sm.watchers w2 sm.all.latestRevno)
            w2).getD 0 = sm.all.latestRevno
          rw [lookupAssoc_setAssoc_self]
          rfl
        rw [hwrev] at hs2
        obtain ⟨e, hl, hc, hr2, hm, _⟩ := hor.2 id e2 hl2
        have hs3 : seenAliveP sm.all.latestRevno e :=
          seenAliveP_congr hc hr2 hm hs2
        have hmem_e : (id, e) ∈ sm.all.list := lookup_mem hl
        have hb : 1 ≤ e.creationRevno ∧ e.creationRevno ≤ e.revno ∧
            e.revno ≤ sm.all.latestRevno := hbounds (id, e) hmem_e
        have halv : e.removed = false := by
          rcases hs3.2 with h1 | h2
          · exact h1
          · exact absurd h2 (not_lt.mpr hb.2.2)
        by_cases hcre : wrevno sm w2 < e.creationRevno
        · have hd := changesSince_alive_mem sm.all (wrevno sm w2) hsort
            id e hmem_e halv (by
              have := hb.2.1
              omega)
          have hin := halive (Store.toDelta e) hd halv
          dsimp only [Store.toDelta] at hin
          rw [hkeys (id, e) hmem_e] at hin
          exact hin
        · have hsold : seenAliveP (wrevno sm w2) e :=
            ⟨by omega, Or.inl halv⟩
          have hv : id ∈ v := hmem id e hl hsold
          by_cases hin : id ∈ (sm.all.ChangesSince (wrevno sm w2)).map
              (fun d => d.entity.eid)
          · obtain ⟨d, hd, hdeq⟩ := List.mem_map.mp hin
            obtain ⟨e3, hl3, hrm3, _⟩ := changesSince_mem_back sm.all
              (wrevno sm w2) hsort hkeys hnodup d hd
            rw [hdeq, hl] at hl3
            have he3 : e = e3 := Option.some.inj hl3
            have hdr : d.removed = false := by
              rw [← hrm3, ← he3]
              exact halv
            have := halive d hd hdr
            rw [hdeq] at this
            exact this
          · rw [huntouched id hin]
            exact hv
    · obtain ⟨v, hview, hmem⟩ := hsees w2
      refine ⟨v, ?_, ?_⟩
      · rw [deliveredTo_append,
          deliveredTo_single_other w w2 r true _ hw2, List.append_nil]
        exact hview
      · intro id e2 hl2 hs2
        have hwrev : wrevno ⟨sm.all.seen (wrevno sm w)
            (sm.all.ChangesSince (wrevno sm w)),
            setAssoc sm.watchers w sm.all.latestRevno, pend, sm.stopped⟩ w2
            = wrevno sm w2 := by
          show (lookupAssoc (setAssoc sm.watchers w sm.all.latestRevno)
            w2).getD 0 = wrevno sm w2
          rw [lookupAssoc_setAssoc_other sm.watchers w w2 _ hw2]
          rfl
        rw [hwrev] at hs2
        obtain ⟨e, hl, hc, hr2, hm, _⟩ := hor.2 id e2 hl2
        exact hmem id e hl (seenAliveP_congr hc hr2 hm hs2)

/-- Helper: the respond step for one watcher preserves the manager
invariant together with its emitted replies. -/
theorem mgrInv_respondOne (sm : StoreManager) (rs : List Reply) (w : Nat)
    (h : MgrInv sm rs) :
    MgrInv (respondOne sm w).1 (rs ++ (respondOne sm w).2) := by
  unfold respondOne
  cases hwait : waitingOf sm w with
  | nil =>
      dsimp only
      rw [List.append_nil]
      exact h
  | cons r rest =>
      dsimp only
      by_cases hcs : sm.all.ChangesSince (wrevno sm w) = []
      · rw [if_pos hcs]
        rw [List.append_nil]
        exact h
      · rw [if_neg hcs]
        exact mgrInv_serve sm rs w r (setAssoc sm.waiting w rest) h

/-- Helper: the respond pass over any list of watchers preserves the
manager invariant. -/
theorem mgrInv_respondFold (ws : List Nat) :
    ∀ (sm : StoreManager) (rs acc : List Reply), MgrInv sm (rs ++ acc) →
      MgrInv (ws.foldl (fun a w => ((respondOne a.1 w).1,
          a.2 ++ (respondOne a.1 w).2)) (sm, acc)).1
        (rs ++ (ws.foldl (fun a w => ((respondOne a.1 w).1,
          a.2 ++ (respondOne a.1 w).2)) (sm, acc)).2) := by
  induction ws with
  | nil =>
      intro sm rs acc h
      exact h
  | cons w t ih =>
      intro sm rs acc h
      rw [List.foldl_cons]
      have hone := mgrInv_respondOne sm (rs ++ acc) w h
      rw [List.append_assoc] at hone
      exact ih (respondOne sm w).1 rs (acc ++ (respondOne sm w).2) hone

/-- Helper: respond preserves the manager invariant. -/
theorem mgrInv_respond (sm : StoreManager) (rs : List Reply)
    (h : MgrInv sm rs) :
    MgrInv sm.respond.1 (rs ++ sm.respond.2) := by
  unfold StoreManager.respond
  exact mgrInv_respondFold (sm.waiting.map Prod.fst) sm rs []
    (by rw [List.append_nil]; exact h)

/-- Helper: every well-formed manager step preserves the invariant. -/
theorem mgrInv_step (sm : StoreManager) (rs : List Reply) (op : Op)
    (hwf : wfOpB op = true) (h : MgrInv sm rs) :
    MgrInv (step sm op).1 (rs ++ (step sm op).2) := by
  cases op with
  | change id info =>
      show MgrInv { sm with all := sm.all.Update id info } (rs ++ [])
      rw [List.append_nil]
      refine mgrInv_change sm rs id info ?_ h
      intro i hi
      subst hi
      simp only [wfOpB, decide_eq_true_iff] at hwf
      exact hwf
  | next w r => exact mgrInv_next sm rs w r h
  | stopw w => exact mgrInv_stop sm rs w h
  | respond => exact mgrInv_respond sm rs h

/-- Helper: the invariant holds after any well-formed run, with the full
reply stream. -/
theorem mgrInv_run (ops : List Op) :
    ∀ (sm : StoreManager) (acc : List Reply),
      (∀ op ∈ ops, wfOpB op = true) → MgrInv sm acc →
      MgrInv (ops.foldl (fun a op => ((step a.1 op).1,
          a.2 ++ (step a.1 op).2)) (sm, acc)).1
        (ops.foldl (fun a op => ((step a.1 op).1,
          a.2 ++ (step a.1 op).2)) (sm, acc)).2 := by
  induction ops with
  | nil =>
      intro sm acc _ h
      exact h
  | cons op t ih =>
      intro sm acc hwf h
      rw [List.foldl_cons]
      exact ih (step sm op).1 (acc ++ (step sm op).2)
        (fun o ho => hwf o (List.mem_cons_of_mem op ho))
        (mgrInv_step sm acc op (hwf op (List.mem_cons_self op t)) h)

/-- C2: over any run of the manager on well-formed backing events, every
watcher's delivered delta stream is consistent: folding it through the
client view update (which fails on a removal of an entity not currently
held alive, and erases the entity on the removal it does hold) always
succeeds, so no watcher ever receives a removal delta for an entity it did
not previously see alive, and a removal is never delivered twice for one
alive sighting; in particular a watcher created after an entity was added
and deleted receives no delta at all for it (ghost tombstones are
skipped), while a watcher that saw the entity alive receives exactly one
alive delta followed by exactly one removal delta. -/
theorem c2_removal_integrity :
    (∀ (ops : List Op) (w : Nat), (∀ op ∈ ops, wfOpB op = true) →
      ∃ v, viewOf (deliveredTo (run ops).2 w) = some v) ∧
    deliveredTo (run [Op.change ⟨"machine", "0"⟩ (some (machineInfo "0" "")),
      Op.change ⟨"machine", "0"⟩ none, Op.next 1 0, Op.respond]).2 1 = [] ∧
    deliveredTo (run [Op.change ⟨"machine", "0"⟩ (some (machineInfo "0" "")),
      Op.next 0 0, Op.respond, Op.change ⟨"machine", "0"⟩ none,
      Op.next 0 1, Op.respond]).2 0 =
      [⟨false, machineInfo "0" ""⟩, ⟨true, machineInfo "0" ""⟩] := by
  refine ⟨?_, by decide, by decide⟩
  intro ops w hwf
  have h := mgrInv_run ops initSM [] hwf mgrInv_init
  obtain ⟨v, hview, _⟩ := h.2.2.2 w
  exact ⟨v, hview⟩

/-- Witness for C2 at the tombstone-retention scenario and watcher 0. -/
theorem c2_removal_integrity_witness :
    ∃ v, viewOf (deliveredTo (run [Op.change ⟨"machine", "0"⟩
      (some (machineInfo "0" "")), Op.next 0 0, Op.respond,
      Op.change ⟨"machine", "0"⟩ none, Op.next 0 1, Op.respond]).2 0) =
      some v :=
  c2_removal_integrity.1 [Op.change ⟨"machine", "0"⟩
      (some (machineInfo "0" "")), Op.next 0 0, Op.respond,
      Op.change ⟨"machine", "0"⟩ none, Op.next 0 1, Op.respond] 0
    (by decide)
